import Mathlib

/-!
Verification of the row resampler of the jpeg-decoder repository
(`src/resampler.rs`).

Embedding conventions:
* Byte planes (`&[u8]`) are modelled as total functions `Nat → Nat`; a read
  of the byte at flat index `j` is `input j % 256`, which models the fact
  that a `u8` slice element always lies in `[0, 256)`.
* Mutable output buffers (`&mut [u8]`) are modelled as functions
  `Nat → Nat`; a store is a pointwise functional update, and a whole
  strategy call returns the updated buffer.  The sequence of stores of the
  Rust code is mirrored by a list of `(index, value)` pairs in program
  order, applied left to right by `writes`.
* `u32` arithmetic is modelled on `Nat`: every operand below is a sum of at
  most four byte-derived values (all intermediates are at most `4088`), so
  no `% 2 ^ 32` reduction can ever fire and plain `Nat` arithmetic agrees
  with `u32` arithmetic.  The `as u8` cast on each stored sample is the
  explicit `u8cast` (reduction mod 256).
* The `f32` computation of `resample_row_v_2_bilinear` and
  `resample_row_hv_2_bilinear` is modelled by exact rational arithmetic
  (`rowNearQ`, `rowFarQ`): for the row and height ranges a decoded image
  can have (both far below `2 ^ 22`) every intermediate value
  (`row / 2`, its fractional part, `± 1/4`-offsets, `height - 1`) is a
  dyadic rational exactly representable in `f32`, so the `f32` evaluation
  is exact and coincides with the rational one.  `toUsize` models Rust's
  saturating float-to-usize cast (truncation toward zero, negative values
  to 0).
* A Rust panic (`unwrap` of `None` in `Resampler::new`) is modelled as the
  `Except.error` branch of the constructor.
-/

/-- The `as u8` cast applied to every stored output sample. -/
def u8cast (x : Nat) : Nat := x % 256

/-- A single store `out[i] = v` into a byte buffer. -/
def wr (out : Nat → Nat) (i v : Nat) : Nat → Nat :=
  fun j => if j = i then v else out j

/-- A sequence of stores, in program order (left to right). -/
def writes (out : Nat → Nat) : List (Nat × Nat) → (Nat → Nat)
  | [] => out
  | p :: ps => writes (wr out p.1 p.2) ps

/-- Component geometry consumed from the parser: sampling factors, the
pixel-plane size and the block size (all as natural numbers; in the source
the factors are `u8` and the sizes `u16`, `size` and `block_size` are pairs
`(width, height)`). -/
structure Component where
  horizontal_sampling_factor : Nat
  vertical_sampling_factor : Nat
  size : Nat × Nat
  block_size : Nat × Nat
  deriving DecidableEq, Repr

/-- The closed set of resampling strategies the selector can return; the
source stores them as function pointers, the four possible values being the
four `resample_row_*` functions. -/
inductive ResampleFunc where
  | row_1
  | row_h_2
  | row_v_2
  | row_hv_2
  deriving DecidableEq, Repr

/-- Exact value of the `f32` expression `row as f32 / 2.0`. -/
def rowNearQ (row : Nat) : ℚ := (row : ℚ) / 2

/-- Exact value of the `f32` expression
`(row_near + row_near.fract() * 3.0 - 0.25).min((input_size.height - 1) as f32)`.
The subtraction `input_size.height - 1` is the `usize` subtraction of the
source, hence truncated. -/
def rowFarQ (row height : Nat) : ℚ :=
  min (rowNearQ row + Int.fract (rowNearQ row) * 3 - 1 / 4) ((height - 1 : Nat) : ℚ)

/-- Rust's `as usize` cast on a (finite) float: truncation toward zero with
saturation at 0 for negative inputs.  On rationals, for `q ≥ 0` truncation
is the floor, and for `q < 0` the result is 0 (`Int.toNat` clamps). -/
def toUsize (q : ℚ) : Nat := (Int.floor q).toNat

/-- The near source row index computed by the vertical strategies. -/
def nearRow (row : Nat) : Nat := toUsize (rowNearQ row)

/-- The far source row index computed by the vertical strategies. -/
def farRow (row height : Nat) : Nat := toUsize (rowFarQ row height)

/-- `fn resample_row_1`: copy `output_width` bytes of the row starting at
`row * row_stride`. -/
def resample_row_1 (input : Nat → Nat) (_input_size : Nat × Nat)
    (row_stride row output_width : Nat) (output : Nat → Nat) : Nat → Nat :=
  writes output
    ((List.range output_width).map (fun i => (i, input (row * row_stride + i) % 256)))

/-- The loop `for i in 1 .. input_size.width - 1` of
`resample_row_h_2_bilinear`, with `b` the byte read at column offset of the
current row and `n` the number of remaining iterations, starting at column
`i`.  Each iteration stores `out[2i]` and `out[2i+1]` from
`sample = 3 * input[i] + 2`. -/
def h_loop (b : Nat → Nat) (i : Nat) : Nat → List (Nat × Nat)
  | 0 => []
  | n + 1 =>
    (i * 2, u8cast ((3 * b i + 2 + b (i - 1)) >>> 2)) ::
    (i * 2 + 1, u8cast ((3 * b i + 2 + b (i + 1)) >>> 2)) ::
    h_loop b (i + 1) n

/-- `fn resample_row_h_2_bilinear`. -/
def resample_row_h_2_bilinear (input : Nat → Nat) (input_size : Nat × Nat)
    (row_stride row _output_width : Nat) (output : Nat → Nat) : Nat → Nat :=
  let b := fun i => input (row * row_stride + i) % 256
  let w := input_size.1
  if w = 1 then
    writes output [(0, b 0), (1, b 0)]
  else
    writes output
      ([(0, b 0), (1, u8cast ((b 0 * 3 + b 1 + 2) >>> 2))] ++
       h_loop b 1 (w - 2) ++
       [((w - 1) * 2, u8cast ((b (w - 1) * 3 + b (w - 2) + 2) >>> 2)),
        ((w - 1) * 2 + 1, b (w - 1))])

/-- `fn resample_row_v_2_bilinear`: blend the near and the far source rows. -/
def resample_row_v_2_bilinear (input : Nat → Nat) (input_size : Nat × Nat)
    (row_stride row output_width : Nat) (output : Nat → Nat) : Nat → Nat :=
  let bn := fun i => input (nearRow row * row_stride + i) % 256
  let bf := fun i => input (farRow row input_size.2 * row_stride + i) % 256
  writes output
    ((List.range output_width).map
      (fun i => (i, u8cast ((3 * bn i + bf i + 2) >>> 2))))

/-- The loop `for i in 1 .. input_size.width` of
`resample_row_hv_2_bilinear`, carrying the running blended value `t1`
(`t0` is the value of `t1` at loop entry); returns the stores in program
order together with the final value of `t1`. -/
def hv_loop (bn bf : Nat → Nat) (t1 i : Nat) : Nat → List (Nat × Nat) × Nat
  | 0 => ([], t1)
  | n + 1 =>
    let t0 := t1
    let t1n := 3 * bn i + bf i
    let rest := hv_loop bn bf t1n (i + 1) n
    ((i * 2 - 1, u8cast ((3 * t0 + t1n + 8) >>> 4)) ::
     (i * 2, u8cast ((3 * t1n + t0 + 8) >>> 4)) :: rest.1, rest.2)

/-- `fn resample_row_hv_2_bilinear`. -/
def resample_row_hv_2_bilinear (input : Nat → Nat) (input_size : Nat × Nat)
    (row_stride row _output_width : Nat) (output : Nat → Nat) : Nat → Nat :=
  let bn := fun i => input (nearRow row * row_stride + i) % 256
  let bf := fun i => input (farRow row input_size.2 * row_stride + i) % 256
  let w := input_size.1
  if w = 1 then
    let value := u8cast ((3 * bn 0 + bf 0 + 2) >>> 2)
    writes output [(0, value), (1, value)]
  else
    let t1 := 3 * bn 0 + bf 0
    let lp := hv_loop bn bf t1 1 (w - 1)
    writes output
      ((0, u8cast ((t1 + 2) >>> 2)) ::
       lp.1 ++
       [(w * 2 - 1, u8cast ((lp.2 + 2) >>> 2))])

/-- Dispatch of the stored strategy value, mirroring the function-pointer
call of the source. -/
def ResampleFunc.apply : ResampleFunc →
    (Nat → Nat) → Nat × Nat → Nat → Nat → Nat → (Nat → Nat) → (Nat → Nat)
  | .row_1 => resample_row_1
  | .row_h_2 => resample_row_h_2_bilinear
  | .row_v_2 => resample_row_v_2_bilinear
  | .row_hv_2 => resample_row_hv_2_bilinear

/-- `struct Resampler`. -/
structure Resampler where
  resample_funcs : List ResampleFunc
  sizes : List (Nat × Nat)
  row_strides : List Nat
  deriving DecidableEq, Repr

/-- `fn choose_resampling_func`.  `Ratio::new(h_max, h).is_integer()` is
divisibility `h ∣ h_max` and `to_integer()` is the exact quotient
`h_max / h` (the sampling factors are positive in any parsed component; the
theorems below carry that hypothesis). -/
def choose_resampling_func (component : Component) (h_max v_max : Nat) :
    Option ResampleFunc :=
  if ¬ (component.horizontal_sampling_factor ∣ h_max ∧
        component.vertical_sampling_factor ∣ v_max) then
    none
  else
    match h_max / component.horizontal_sampling_factor,
          v_max / component.vertical_sampling_factor with
    | 1, 1 => some .row_1
    | 2, 1 => some .row_h_2
    | 1, 2 => some .row_v_2
    | 2, 2 => some .row_hv_2
    | _, _ => none

/-- `Resampler::new`.  The two `.max().unwrap()` calls panic on an empty
component slice; the panic is the `Except.error` branch.  In the success
branch all selector results are `some`, and `filterMap id` is their
unwrapping. -/
def Resampler.new (components : List Component) :
    Except String (Option Resampler) :=
  match (components.map (fun c => c.horizontal_sampling_factor)).max?,
        (components.map (fun c => c.vertical_sampling_factor)).max? with
  | some h_max, some v_max =>
    let resample_funcs : List (Option ResampleFunc) :=
      components.map (fun component => choose_resampling_func component h_max v_max)
    if resample_funcs.any (fun func => func.isNone) then
      Except.ok none
    else
      Except.ok (some
        { resample_funcs := resample_funcs.filterMap (fun func => func),
          sizes := components.map (fun comp => (comp.size.1, comp.size.2)),
          row_strides := components.map (fun comp => comp.block_size.1 * 8) })
  | _, _ => Except.error "unwrap of None"

/-- `Resampler::resample_and_interleave_row`.  The scratch `line_buffer`
(`vec![0u8; output_width + 1]`) is threaded through the component loop as
the first state part; the interleaved output buffer is the second.  List
indexing of the source is `getD` (the preconditions of the theorems keep
every index in range). -/
def Resampler.resample_and_interleave_row (self : Resampler)
    (component_data : List (Nat → Nat)) (row output_width : Nat)
    (output : Nat → Nat) : Nat → Nat :=
  let component_count := component_data.length
  let st := (List.range component_count).foldl
    (fun (st : (Nat → Nat) × (Nat → Nat)) i =>
      let line_buffer :=
        (self.resample_funcs.getD i .row_1).apply
          (component_data.getD i (fun _ => 0))
          (self.sizes.getD i (0, 0))
          (self.row_strides.getD i 0)
          row output_width st.1
      (line_buffer,
       writes st.2
         ((List.range output_width).map
           (fun x => (x * component_count + i, line_buffer x)))))
    ((fun _ => 0), output)
  st.2

/-- The samples a strategy leaves at positions `[0, output_width)` do not
depend on the previous contents of the scratch buffer.  This is the formal
content of the driver's precondition that `row` and `output_width` are
valid for the image: every identity or vertical-double call covers
`output_width` positions outright, and a horizontal call covers them
whenever `output_width ≤ 2 * width` (the caller's `output_width` reflects
the doubling). -/
def coversOutput (f : ResampleFunc) (input : Nat → Nat) (sz : Nat × Nat)
    (stride row ow : Nat) : Prop :=
  ∀ buf buf' : Nat → Nat, ∀ x, x < ow →
    f.apply input sz stride row ow buf x = f.apply input sz stride row ow buf' x

/-- The supported ratio table, from the spec's words ("one of four supported
pairs"). -/
def spec_supported_pair (p : Nat × Nat) : Prop :=
  p = (1, 1) ∨ p = (2, 1) ∨ p = (1, 2) ∨ p = (2, 2)

/-- A component is unsupported, from the spec's words: either scale-up
ratio non-integral, or the integer ratio pair outside the table. -/
def spec_unsupported (c : Component) (h_max v_max : Nat) : Prop :=
  ¬ c.horizontal_sampling_factor ∣ h_max ∨
  ¬ c.vertical_sampling_factor ∣ v_max ∨
  ¬ spec_supported_pair
      (h_max / c.horizontal_sampling_factor, v_max / c.vertical_sampling_factor)

/-- The strategy the spec's table assigns to a supported ratio pair. -/
def spec_strategy (p : Nat × Nat) : ResampleFunc :=
  if p = (2, 1) then .row_h_2
  else if p = (1, 2) then .row_v_2
  else if p = (2, 2) then .row_hv_2
  else .row_1

instance (p : Nat × Nat) : Decidable (spec_supported_pair p) := by
  unfold spec_supported_pair
  infer_instance

instance (c : Component) (hm vm : Nat) : Decidable (spec_unsupported c hm vm) := by
  unfold spec_unsupported
  infer_instance

/-- The maximum horizontal sampling factor (defined for a non-empty list). -/
def hMax (components : List Component) : Nat :=
  ((components.map (fun c => c.horizontal_sampling_factor)).max?).getD 0

/-- The maximum vertical sampling factor (defined for a non-empty list). -/
def vMax (components : List Component) : Nat :=
  ((components.map (fun c => c.vertical_sampling_factor)).max?).getD 0

/-- The vertically blended, unshifted value `t[i] = 3 * near[i] + far[i]`
of the horizontal+vertical strategy, reading the near and far rows the way
`resample_row_hv_2_bilinear` does. -/
def tBlend (input : Nat → Nat) (h stride row i : Nat) : Nat :=
  3 * (input (nearRow row * stride + i) % 256) +
    input (farRow row h * stride + i) % 256

-- ## Generic lemmas about sequences of stores

theorem writes_notin (ps : List (Nat × Nat)) (out : Nat → Nat) (j : Nat)
    (h : ∀ p ∈ ps, p.1 ≠ j) : writes out ps j = out j := by
  induction ps generalizing out with
  | nil => rfl
  | cons p ps ih =>
    rw [writes, ih _ (fun q hq => h q (List.mem_cons_of_mem p hq))]
    simp only [wr]
    rw [if_neg]
    exact fun hj => h p (List.mem_cons_self p ps) (hj ▸ rfl)

theorem writes_mem_unique (ps : List (Nat × Nat)) (out : Nat → Nat) (j v : Nat)
    (hmem : (j, v) ∈ ps) (huniq : ∀ p ∈ ps, p.1 = j → p.2 = v) :
    writes out ps j = v := by
  induction ps generalizing out with
  | nil => exact absurd hmem (List.not_mem_nil _)
  | cons p ps ih =>
    by_cases hj : ∀ q ∈ ps, q.1 ≠ j
    · have hp : p = (j, v) := by
        rcases List.mem_cons.1 hmem with h | h
        · exact h.symm
        · exact absurd rfl (hj _ h)
      rw [writes, writes_notin _ _ _ hj, hp]
      simp [wr]
    · push_neg at hj
      obtain ⟨q, hq, hq1⟩ := hj
      have hq2 : q.2 = v := huniq q (List.mem_cons_of_mem p hq) hq1
      have : (j, v) ∈ ps := by
        have : q = (j, v) := Prod.ext hq1 hq2
        exact this ▸ hq
      exact ih _ this (fun r hr h1 => huniq r (List.mem_cons_of_mem p hr) h1)

theorem writes_bound (ps : List (Nat × Nat)) (out : Nat → Nat) (j : Nat)
    (h : ∀ p ∈ ps, p.2 < 256) :
    writes out ps j = out j ∨ writes out ps j < 256 := by
  induction ps generalizing out with
  | nil => exact Or.inl rfl
  | cons p ps ih =>
    rw [writes]
    rcases ih (wr out p.1 p.2) (fun q hq => h q (List.mem_cons_of_mem p hq)) with
      h1 | h1
    · rw [h1]
      simp only [wr]
      by_cases hj : j = p.1
      · exact Or.inr (by rw [if_pos hj]; exact h p (List.mem_cons_self p ps))
      · exact Or.inl (by rw [if_neg hj])
    · exact Or.inr h1

-- ## The row mapping of the vertical strategies

theorem floor_natCast_div_two (m : Nat) :
    Int.floor ((m : ℚ) / 2) = ((m / 2 : Nat) : Int) := by
  rw [Int.floor_eq_iff]
  constructor
  · rw [le_div_iff₀ (by norm_num : (0 : ℚ) < 2)]
    push_cast
    exact_mod_cast Nat.cast_le.2 (Nat.div_mul_le_self m 2)
  · rw [div_lt_iff₀ (by norm_num : (0 : ℚ) < 2)]
    push_cast
    have : m < (m / 2 + 1) * 2 := by omega
    calc (m : ℚ) < ((m / 2 + 1) * 2 : Nat) := by exact_mod_cast this
    _ = ((m / 2 : Nat) : ℚ) * 2 + 1 * 2 := by push_cast; ring
    _ ≤ (((m / 2 : Nat) : ℚ) + 1) * 2 := by ring_nf; norm_num

theorem nearRow_eq (row : Nat) : nearRow row = row / 2 := by
  unfold nearRow toUsize rowNearQ
  rw [floor_natCast_div_two]
  omega

theorem farRow_eq (row h : Nat) (hh : 1 ≤ h) (hrow : row < 2 * h) :
    farRow row h =
      if row % 2 = 1 then min (row / 2 + 1) (h - 1) else row / 2 - 1 := by
  have hdm : 2 * (row / 2) + row % 2 = row := Nat.div_add_mod row 2
  set k := row / 2 with hk
  have hkh : k ≤ h - 1 := by omega
  have hcast : ((h - 1 : Nat) : ℚ) = ((h : ℚ) - 1) := by
    push_cast [Nat.cast_sub hh]
    ring
  rcases Nat.mod_two_eq_zero_or_one row with hm | hm
  · -- even output row: row = 2 * k
    have hrowk : row = 2 * k := by omega
    have hq : rowNearQ row = (k : ℚ) := by
      unfold rowNearQ
      rw [hrowk]
      push_cast
      ring
    have hfr : Int.fract (rowNearQ row) = 0 := by
      rw [hq]
      exact Int.fract_natCast k
    unfold farRow toUsize rowFarQ
    rw [hfr, hq]
    simp only [zero_mul, add_zero]
    by_cases hk0 : k = 0
    · have hmin : min ((k : ℚ) - 1 / 4) ((h - 1 : Nat) : ℚ) = (k : ℚ) - 1 / 4 := by
        apply min_eq_left
        rw [hk0, hcast]
        push_cast
        have : (1 : ℚ) ≤ (h : ℚ) := by exact_mod_cast hh
        linarith
      rw [hmin, hk0]
      have : Int.floor ((0 : ℚ) - 1 / 4) = -1 := by
        rw [Int.floor_eq_iff]
        norm_num
      simp only [Nat.cast_zero, if_neg (by omega : ¬ row % 2 = 1)]
      rw [this]
      omega
    · have hk1 : 1 ≤ k := by omega
      have hmin : min ((k : ℚ) - 1 / 4) ((h - 1 : Nat) : ℚ) = (k : ℚ) - 1 / 4 := by
        apply min_eq_left
        rw [hcast]
        have h1 : (k : ℚ) ≤ (h : ℚ) - 1 := by
          rw [← hcast]
          exact_mod_cast hkh
        linarith
      rw [hmin]
      have hfl : Int.floor ((k : ℚ) - 1 / 4) = (k : Int) - 1 := by
        rw [Int.floor_eq_iff]
        constructor
        · push_cast
          linarith
        · push_cast
          linarith
      rw [hfl, if_neg (by omega : ¬ row % 2 = 1)]
      omega
  · -- odd output row: row = 2 * k + 1
    have hrowk : row = 2 * k + 1 := by omega
    have hq : rowNearQ row = (k : ℚ) + 1 / 2 := by
      unfold rowNearQ
      rw [hrowk]
      push_cast
      ring
    have hflhalf : Int.floor ((k : ℚ) + 1 / 2) = (k : Int) := by
      rw [Int.floor_eq_iff]
      constructor
      · push_cast
        linarith
      · push_cast
        linarith
    have hfr : Int.fract (rowNearQ row) = 1 / 2 := by
      rw [Int.fract, hq, hflhalf]
      push_cast
      ring
    unfold farRow toUsize rowFarQ
    rw [hfr, hq]
    have hexpr : (k : ℚ) + 1 / 2 + 1 / 2 * 3 - 1 / 4 = (k : ℚ) + 7 / 4 := by ring
    rw [hexpr, if_pos hm]
    by_cases hcase : k + 2 ≤ h - 1
    · have hmin : min ((k : ℚ) + 7 / 4) ((h - 1 : Nat) : ℚ) = (k : ℚ) + 7 / 4 := by
        apply min_eq_left
        have h1 : ((k + 2 : Nat) : ℚ) ≤ ((h - 1 : Nat) : ℚ) := by exact_mod_cast hcase
        push_cast at h1
        linarith
      rw [hmin]
      have hfl : Int.floor ((k : ℚ) + 7 / 4) = (k : Int) + 1 := by
        rw [Int.floor_eq_iff]
        constructor
        · push_cast
          linarith
        · push_cast
          linarith
      rw [hfl]
      omega
    · have hge : h - 1 ≤ k + 1 := by omega
      have hmin : min ((k : ℚ) + 7 / 4) ((h - 1 : Nat) : ℚ) = ((h - 1 : Nat) : ℚ) := by
        apply min_eq_right
        have h1 : ((h - 1 : Nat) : ℚ) ≤ ((k + 1 : Nat) : ℚ) := by exact_mod_cast hge
        push_cast at h1
        linarith
      rw [hmin]
      have hfl : Int.floor (((h - 1 : Nat) : ℚ)) = ((h - 1 : Nat) : Int) :=
        Int.floor_natCast _
      rw [hfl]
      omega

theorem nearRow_lt (row h : Nat) (_hh : 1 ≤ h) (hrow : row < 2 * h) :
    nearRow row < h := by
  rw [nearRow_eq]
  omega

theorem farRow_lt (row h : Nat) (hh : 1 ≤ h) (hrow : row < 2 * h) :
    farRow row h < h := by
  rw [farRow_eq row h hh hrow]
  rcases Nat.mod_two_eq_zero_or_one row with hm | hm <;> simp [hm] <;> omega

-- ## Pointwise evaluation of the strategies

theorem writes_range_map (f : Nat → Nat) (ow : Nat) (out : Nat → Nat) (j : Nat)
    (hj : j < ow) :
    writes out ((List.range ow).map (fun i => (i, f i))) j = f j := by
  apply writes_mem_unique
  · exact List.mem_map.2 ⟨j, List.mem_range.2 hj, rfl⟩
  · intro p hp h1
    obtain ⟨i, _, hpi⟩ := List.mem_map.1 hp
    rw [← hpi] at h1 ⊢
    simp only at h1 ⊢
    rw [h1]

theorem writes_range_map_high (f : Nat → Nat) (ow : Nat) (out : Nat → Nat)
    (j : Nat) (hj : ow ≤ j) :
    writes out ((List.range ow).map (fun i => (i, f i))) j = out j := by
  apply writes_notin
  intro p hp
  obtain ⟨i, hi, hpi⟩ := List.mem_map.1 hp
  rw [← hpi]
  simp only
  exact fun h => by rw [h] at hi; exact absurd (List.mem_range.1 hi) (by omega)

theorem resample_row_1_eval (input : Nat → Nat) (sz : Nat × Nat)
    (stride row ow : Nat) (out : Nat → Nat) (j : Nat) (hj : j < ow) :
    resample_row_1 input sz stride row ow out j = input (row * stride + j) % 256 := by
  unfold resample_row_1
  exact writes_range_map _ _ _ _ hj

theorem resample_row_1_high (input : Nat → Nat) (sz : Nat × Nat)
    (stride row ow : Nat) (out : Nat → Nat) (j : Nat) (hj : ow ≤ j) :
    resample_row_1 input sz stride row ow out j = out j := by
  unfold resample_row_1
  exact writes_range_map_high _ _ _ _ hj

theorem resample_row_v_2_eval (input : Nat → Nat) (w h : Nat)
    (stride row ow : Nat) (out : Nat → Nat) (j : Nat) (hj : j < ow) :
    resample_row_v_2_bilinear input (w, h) stride row ow out j =
      u8cast ((3 * (input (nearRow row * stride + j) % 256) +
               input (farRow row h * stride + j) % 256 + 2) >>> 2) := by
  unfold resample_row_v_2_bilinear
  exact writes_range_map _ _ _ _ hj

theorem resample_row_v_2_high (input : Nat → Nat) (w h : Nat)
    (stride row ow : Nat) (out : Nat → Nat) (j : Nat) (hj : ow ≤ j) :
    resample_row_v_2_bilinear input (w, h) stride row ow out j = out j := by
  unfold resample_row_v_2_bilinear
  exact writes_range_map_high _ _ _ _ hj

theorem h_loop_mem (b : Nat → Nat) :
    ∀ n i p, p ∈ h_loop b i n ↔
      ∃ k, i ≤ k ∧ k < i + n ∧
        (p = (k * 2, u8cast ((3 * b k + 2 + b (k - 1)) >>> 2)) ∨
         p = (k * 2 + 1, u8cast ((3 * b k + 2 + b (k + 1)) >>> 2))) := by
  intro n
  induction n with
  | zero =>
    intro i p
    simp only [h_loop, List.not_mem_nil, false_iff]
    rintro ⟨k, h1, h2, -⟩
    omega
  | succ n ih =>
    intro i p
    simp only [h_loop, List.mem_cons, ih (i + 1) p]
    constructor
    · rintro (hp | hp | ⟨k, hk1, hk2, hk3⟩)
      · exact ⟨i, le_refl i, by omega, Or.inl hp⟩
      · exact ⟨i, le_refl i, by omega, Or.inr hp⟩
      · exact ⟨k, by omega, by omega, hk3⟩
    · rintro ⟨k, hk1, hk2, hk3⟩
      by_cases hki : k = i
      · subst hki
        rcases hk3 with hp | hp
        · exact Or.inl hp
        · exact Or.inr (Or.inl hp)
      · exact Or.inr (Or.inr ⟨k, by omega, by omega, hk3⟩)

theorem h2_unfold (input : Nat → Nat) (w h stride row ow : Nat) (out : Nat → Nat)
    (hw : ¬ w = 1) :
    resample_row_h_2_bilinear input (w, h) stride row ow out =
      writes out
        ([(0, input (row * stride + 0) % 256),
          (1, u8cast ((input (row * stride + 0) % 256 * 3 +
                       input (row * stride + 1) % 256 + 2) >>> 2))] ++
         h_loop (fun i => input (row * stride + i) % 256) 1 (w - 2) ++
         [((w - 1) * 2, u8cast ((input (row * stride + (w - 1)) % 256 * 3 +
                                 input (row * stride + (w - 2)) % 256 + 2) >>> 2)),
          ((w - 1) * 2 + 1, input (row * stride + (w - 1)) % 256)]) := by
  simp only [resample_row_h_2_bilinear]
  rw [if_neg hw]

theorem h2_eval_w1 (input : Nat → Nat) (h stride row ow : Nat) (out : Nat → Nat) :
    resample_row_h_2_bilinear input (1, h) stride row ow out 0 =
        input (row * stride + 0) % 256 ∧
    resample_row_h_2_bilinear input (1, h) stride row ow out 1 =
        input (row * stride + 0) % 256 := by
  simp only [resample_row_h_2_bilinear, if_true]
  constructor <;> · simp [writes, wr]

theorem h2_eval_0 (input : Nat → Nat) (w h stride row ow : Nat) (out : Nat → Nat)
    (hw : 2 ≤ w) :
    resample_row_h_2_bilinear input (w, h) stride row ow out 0 =
      input (row * stride + 0) % 256 := by
  rw [h2_unfold input w h stride row ow out (by omega)]
  apply writes_mem_unique
  · simp
  · intro p hp h1
    simp only [List.mem_append, List.mem_cons, List.not_mem_nil, or_false,
      h_loop_mem] at hp
    rcases hp with ((rfl | rfl) | ⟨k, hk1, hk2, (rfl | rfl)⟩) | (rfl | rfl) <;>
      simp only at h1 ⊢ <;> omega

theorem h2_eval_1 (input : Nat → Nat) (w h stride row ow : Nat) (out : Nat → Nat)
    (hw : 2 ≤ w) :
    resample_row_h_2_bilinear input (w, h) stride row ow out 1 =
      u8cast ((input (row * stride + 0) % 256 * 3 +
               input (row * stride + 1) % 256 + 2) >>> 2) := by
  rw [h2_unfold input w h stride row ow out (by omega)]
  apply writes_mem_unique
  · simp
  · intro p hp h1
    simp only [List.mem_append, List.mem_cons, List.not_mem_nil, or_false,
      h_loop_mem] at hp
    rcases hp with ((rfl | rfl) | ⟨k, hk1, hk2, (rfl | rfl)⟩) | (rfl | rfl) <;>
      simp only at h1 ⊢ <;> omega

theorem h2_eval_even (input : Nat → Nat) (w h stride row ow : Nat)
    (out : Nat → Nat) (hw : 2 ≤ w) (i : Nat) (hi1 : 1 ≤ i) (hi2 : i ≤ w - 2) :
    resample_row_h_2_bilinear input (w, h) stride row ow out (i * 2) =
      u8cast ((3 * (input (row * stride + i) % 256) + 2 +
               input (row * stride + (i - 1)) % 256) >>> 2) := by
  rw [h2_unfold input w h stride row ow out (by omega)]
  apply writes_mem_unique
  · simp only [List.mem_append, List.mem_cons, List.not_mem_nil, or_false,
      h_loop_mem]
    exact Or.inl (Or.inr ⟨i, hi1, by omega, Or.inl rfl⟩)
  · intro p hp h1
    simp only [List.mem_append, List.mem_cons, List.not_mem_nil, or_false,
      h_loop_mem] at hp
    rcases hp with ((rfl | rfl) | ⟨k, hk1, hk2, (rfl | rfl)⟩) | (rfl | rfl) <;>
      simp only at h1 ⊢
    · omega
    · omega
    · have : k = i := by omega
      subst this
      rfl
    · omega
    · omega
    · omega

theorem h2_eval_odd (input : Nat → Nat) (w h stride row ow : Nat)
    (out : Nat → Nat) (hw : 2 ≤ w) (i : Nat) (hi1 : 1 ≤ i) (hi2 : i ≤ w - 2) :
    resample_row_h_2_bilinear input (w, h) stride row ow out (i * 2 + 1) =
      u8cast ((3 * (input (row * stride + i) % 256) + 2 +
               input (row * stride + (i + 1)) % 256) >>> 2) := by
  rw [h2_unfold input w h stride row ow out (by omega)]
  apply writes_mem_unique
  · simp only [List.mem_append, List.mem_cons, List.not_mem_nil, or_false,
      h_loop_mem]
    exact Or.inl (Or.inr ⟨i, hi1, by omega, Or.inr rfl⟩)
  · intro p hp h1
    simp only [List.mem_append, List.mem_cons, List.not_mem_nil, or_false,
      h_loop_mem] at hp
    rcases hp with ((rfl | rfl) | ⟨k, hk1, hk2, (rfl | rfl)⟩) | (rfl | rfl) <;>
      simp only at h1 ⊢
    · omega
    · omega
    · omega
    · have : k = i := by omega
      subst this
      rfl
    · omega
    · omega

theorem h2_eval_last_even (input : Nat → Nat) (w h stride row ow : Nat)
    (out : Nat → Nat) (hw : 2 ≤ w) :
    resample_row_h_2_bilinear input (w, h) stride row ow out ((w - 1) * 2) =
      u8cast ((input (row * stride + (w - 1)) % 256 * 3 +
               input (row * stride + (w - 2)) % 256 + 2) >>> 2) := by
  rw [h2_unfold input w h stride row ow out (by omega)]
  apply writes_mem_unique
  · simp
  · intro p hp h1
    simp only [List.mem_append, List.mem_cons, List.not_mem_nil, or_false,
      h_loop_mem] at hp
    rcases hp with ((rfl | rfl) | ⟨k, hk1, hk2, (rfl | rfl)⟩) | (rfl | rfl) <;>
      simp only at h1 ⊢ <;> omega

theorem h2_eval_last (input : Nat → Nat) (w h stride row ow : Nat)
    (out : Nat → Nat) (hw : 2 ≤ w) :
    resample_row_h_2_bilinear input (w, h) stride row ow out ((w - 1) * 2 + 1) =
      input (row * stride + (w - 1)) % 256 := by
  rw [h2_unfold input w h stride row ow out (by omega)]
  apply writes_mem_unique
  · simp
  · intro p hp h1
    simp only [List.mem_append, List.mem_cons, List.not_mem_nil, or_false,
      h_loop_mem] at hp
    rcases hp with ((rfl | rfl) | ⟨k, hk1, hk2, (rfl | rfl)⟩) | (rfl | rfl) <;>
      simp only at h1 ⊢ <;> omega

theorem h2_eval_high (input : Nat → Nat) (w h stride row ow : Nat)
    (out : Nat → Nat) (hw : 1 ≤ w) (j : Nat) (hj : 2 * w ≤ j) :
    resample_row_h_2_bilinear input (w, h) stride row ow out j = out j := by
  by_cases hw1 : w = 1
  · subst hw1
    simp only [resample_row_h_2_bilinear, if_true]
    apply writes_notin
    intro p hp
    simp only [List.mem_cons, List.not_mem_nil, or_false] at hp
    rcases hp with rfl | rfl <;> simp only <;> omega
  · rw [h2_unfold input w h stride row ow out (by omega)]
    apply writes_notin
    intro p hp
    simp only [List.mem_append, List.mem_cons, List.not_mem_nil, or_false,
      h_loop_mem] at hp
    rcases hp with ((rfl | rfl) | ⟨k, hk1, hk2, (rfl | rfl)⟩) | (rfl | rfl) <;>
      simp only <;> omega

theorem hv_loop_snd (bn bf : Nat → Nat) :
    ∀ n i t1, (hv_loop bn bf t1 i n).2 =
      if n = 0 then t1 else 3 * bn (i + n - 1) + bf (i + n - 1) := by
  intro n
  induction n with
  | zero => intro i t1; rfl
  | succ n ih =>
    intro i t1
    simp only [hv_loop, ih (i + 1)]
    by_cases hn : n = 0
    · subst hn
      simp
    · rw [if_neg hn, if_neg (by omega : ¬ n + 1 = 0)]
      have : i + 1 + n - 1 = i + (n + 1) - 1 := by omega
      rw [this]

theorem hv_loop_mem (bn bf : Nat → Nat) :
    ∀ n i p, 1 ≤ i →
      (p ∈ (hv_loop bn bf (3 * bn (i - 1) + bf (i - 1)) i n).1 ↔
        ∃ k, i ≤ k ∧ k < i + n ∧
          (p = (k * 2 - 1,
                u8cast ((3 * (3 * bn (k - 1) + bf (k - 1)) +
                         (3 * bn k + bf k) + 8) >>> 4)) ∨
           p = (k * 2,
                u8cast ((3 * (3 * bn k + bf k) +
                         (3 * bn (k - 1) + bf (k - 1)) + 8) >>> 4)))) := by
  intro n
  induction n with
  | zero =>
    intro i p hi
    simp only [hv_loop, List.not_mem_nil, false_iff]
    rintro ⟨k, h1, h2, -⟩
    omega
  | succ n ih =>
    intro i p hi
    have hrec : (3 : Nat) * bn i + bf i = 3 * bn (i + 1 - 1) + bf (i + 1 - 1) := by
      norm_num
    simp only [hv_loop, List.mem_cons]
    rw [show (hv_loop bn bf (3 * bn i + bf i) (i + 1) n) =
        (hv_loop bn bf (3 * bn (i + 1 - 1) + bf (i + 1 - 1)) (i + 1) n) from by
      rw [← hrec]]
    rw [ih (i + 1) p (by omega)]
    constructor
    · rintro (hp | hp | ⟨k, hk1, hk2, hk3⟩)
      · exact ⟨i, le_refl i, by omega, Or.inl hp⟩
      · exact ⟨i, le_refl i, by omega, Or.inr hp⟩
      · exact ⟨k, by omega, by omega, hk3⟩
    · rintro ⟨k, hk1, hk2, hk3⟩
      by_cases hki : k = i
      · subst hki
        rcases hk3 with hp | hp
        · exact Or.inl hp
        · exact Or.inr (Or.inl hp)
      · exact Or.inr (Or.inr ⟨k, by omega, by omega, hk3⟩)

theorem hv2_unfold (input : Nat → Nat) (w h stride row ow : Nat)
    (out : Nat → Nat) (hw : ¬ w = 1) :
    resample_row_hv_2_bilinear input (w, h) stride row ow out =
      writes out
        ((0, u8cast ((3 * (input (nearRow row * stride + 0) % 256) +
                      input (farRow row h * stride + 0) % 256 + 2) >>> 2)) ::
         (hv_loop (fun i => input (nearRow row * stride + i) % 256)
            (fun i => input (farRow row h * stride + i) % 256)
            (3 * (input (nearRow row * stride + 0) % 256) +
             input (farRow row h * stride + 0) % 256) 1 (w - 1)).1 ++
         [(w * 2 - 1,
           u8cast (((hv_loop (fun i => input (nearRow row * stride + i) % 256)
              (fun i => input (farRow row h * stride + i) % 256)
              (3 * (input (nearRow row * stride + 0) % 256) +
               input (farRow row h * stride + 0) % 256) 1 (w - 1)).2 + 2) >>> 2))]) := by
  simp only [resample_row_hv_2_bilinear]
  rw [if_neg hw]

theorem hv_loop_mem_one (bn bf : Nat → Nat) (n : Nat) (p : Nat × Nat) :
    p ∈ (hv_loop bn bf (3 * bn 0 + bf 0) 1 n).1 ↔
      ∃ k, 1 ≤ k ∧ k < 1 + n ∧
        (p = (k * 2 - 1,
              u8cast ((3 * (3 * bn (k - 1) + bf (k - 1)) +
                       (3 * bn k + bf k) + 8) >>> 4)) ∨
         p = (k * 2,
              u8cast ((3 * (3 * bn k + bf k) +
                       (3 * bn (k - 1) + bf (k - 1)) + 8) >>> 4))) := by
  have h := hv_loop_mem bn bf n 1 p (le_refl 1)
  norm_num at h
  exact h

theorem hv2_eval_w1 (input : Nat → Nat) (h stride row ow : Nat)
    (out : Nat → Nat) :
    resample_row_hv_2_bilinear input (1, h) stride row ow out 0 =
      u8cast ((3 * (input (nearRow row * stride + 0) % 256) +
               input (farRow row h * stride + 0) % 256 + 2) >>> 2) ∧
    resample_row_hv_2_bilinear input (1, h) stride row ow out 1 =
      u8cast ((3 * (input (nearRow row * stride + 0) % 256) +
               input (farRow row h * stride + 0) % 256 + 2) >>> 2) := by
  simp only [resample_row_hv_2_bilinear, if_true]
  constructor <;> · simp [writes, wr]

theorem hv2_eval_0 (input : Nat → Nat) (w h stride row ow : Nat)
    (out : Nat → Nat) (hw : 2 ≤ w) :
    resample_row_hv_2_bilinear input (w, h) stride row ow out 0 =
      u8cast ((3 * (input (nearRow row * stride + 0) % 256) +
               input (farRow row h * stride + 0) % 256 + 2) >>> 2) := by
  rw [hv2_unfold input w h stride row ow out (by omega)]
  apply writes_mem_unique
  · simp
  · intro p hp h1
    simp only [List.cons_append, List.mem_cons, List.mem_append,
      List.mem_singleton, List.not_mem_nil, or_false, hv_loop_mem_one] at hp
    rcases hp with rfl | ⟨k, hk1, hk2, (rfl | rfl)⟩ | rfl <;>
      simp only at h1 ⊢ <;> omega

theorem hv2_eval_odd (input : Nat → Nat) (w h stride row ow : Nat)
    (out : Nat → Nat) (hw : 2 ≤ w) (i : Nat) (hi1 : 1 ≤ i) (hi2 : i < w) :
    resample_row_hv_2_bilinear input (w, h) stride row ow out (i * 2 - 1) =
      u8cast ((3 * (3 * (input (nearRow row * stride + (i - 1)) % 256) +
                    input (farRow row h * stride + (i - 1)) % 256) +
               (3 * (input (nearRow row * stride + i) % 256) +
                input (farRow row h * stride + i) % 256) + 8) >>> 4) := by
  rw [hv2_unfold input w h stride row ow out (by omega)]
  apply writes_mem_unique
  · simp only [List.cons_append, List.mem_cons, List.mem_append,
      List.mem_singleton, List.not_mem_nil, or_false, hv_loop_mem_one]
    exact Or.inr (Or.inl ⟨i, hi1, by omega, Or.inl rfl⟩)
  · intro p hp h1
    simp only [List.cons_append, List.mem_cons, List.mem_append,
      List.mem_singleton, List.not_mem_nil, or_false, hv_loop_mem_one] at hp
    rcases hp with rfl | ⟨k, hk1, hk2, (rfl | rfl)⟩ | rfl <;>
      simp only at h1 ⊢
    · omega
    · have : k = i := by omega
      subst this
      rfl
    · omega
    · omega

theorem hv2_eval_even (input : Nat → Nat) (w h stride row ow : Nat)
    (out : Nat → Nat) (hw : 2 ≤ w) (i : Nat) (hi1 : 1 ≤ i) (hi2 : i < w) :
    resample_row_hv_2_bilinear input (w, h) stride row ow out (i * 2) =
      u8cast ((3 * (3 * (input (nearRow row * stride + i) % 256) +
                    input (farRow row h * stride + i) % 256) +
               (3 * (input (nearRow row * stride + (i - 1)) % 256) +
                input (farRow row h * stride + (i - 1)) % 256) + 8) >>> 4) := by
  rw [hv2_unfold input w h stride row ow out (by omega)]
  apply writes_mem_unique
  · simp only [List.cons_append, List.mem_cons, List.mem_append,
      List.mem_singleton, List.not_mem_nil, or_false, hv_loop_mem_one]
    exact Or.inr (Or.inl ⟨i, hi1, by omega, Or.inr rfl⟩)
  · intro p hp h1
    simp only [List.cons_append, List.mem_cons, List.mem_append,
      List.mem_singleton, List.not_mem_nil, or_false, hv_loop_mem_one] at hp
    rcases hp with rfl | ⟨k, hk1, hk2, (rfl | rfl)⟩ | rfl <;>
      simp only at h1 ⊢
    · omega
    · omega
    · have : k = i := by omega
      subst this
      rfl
    · omega

theorem hv2_eval_last (input : Nat → Nat) (w h stride row ow : Nat)
    (out : Nat → Nat) (hw : 2 ≤ w) :
    resample_row_hv_2_bilinear input (w, h) stride row ow out (w * 2 - 1) =
      u8cast ((3 * (input (nearRow row * stride + (w - 1)) % 256) +
               input (farRow row h * stride + (w - 1)) % 256 + 2) >>> 2) := by
  rw [hv2_unfold input w h stride row ow out (by omega)]
  rw [hv_loop_snd]
  rw [if_neg (by omega : ¬ w - 1 = 0)]
  have hidx : 1 + (w - 1) - 1 = w - 1 := by omega
  rw [hidx]
  apply writes_mem_unique
  · simp
  · intro p hp h1
    simp only [List.cons_append, List.mem_cons, List.mem_append,
      List.mem_singleton, List.not_mem_nil, or_false, hv_loop_mem_one] at hp
    rcases hp with rfl | ⟨k, hk1, hk2, (rfl | rfl)⟩ | rfl <;>
      simp only at h1 ⊢ <;> omega

theorem hv2_eval_high (input : Nat → Nat) (w h stride row ow : Nat)
    (out : Nat → Nat) (hw : 1 ≤ w) (j : Nat) (hj : 2 * w ≤ j) :
    resample_row_hv_2_bilinear input (w, h) stride row ow out j = out j := by
  by_cases hw1 : w = 1
  · subst hw1
    simp only [resample_row_hv_2_bilinear, if_true]
    apply writes_notin
    intro p hp
    simp only [List.mem_cons, List.not_mem_nil, or_false] at hp
    rcases hp with rfl | rfl <;> simp only <;> omega
  · rw [hv2_unfold input w h stride row ow out (by omega)]
    apply writes_notin
    intro p hp
    simp only [List.cons_append, List.mem_cons, List.mem_append,
      List.mem_singleton, List.not_mem_nil, or_false, hv_loop_mem_one] at hp
    rcases hp with rfl | ⟨k, hk1, hk2, (rfl | rfl)⟩ | rfl <;>
      simp only <;> omega

-- ## Range bounds and cast removal

theorem byte_lt (input : Nat → Nat) (j : Nat) : input j % 256 < 256 :=
  Nat.mod_lt _ (by norm_num)

theorem blend4_le (a b : Nat) (ha : a ≤ 255) (hb : b ≤ 255) :
    (3 * a + b + 2) >>> 2 ≤ 255 := by
  rw [Nat.shiftRight_eq_div_pow]
  omega

theorem blend16_le (t0 t1 : Nat) (h0 : t0 ≤ 1020) (h1 : t1 ≤ 1020) :
    (3 * t0 + t1 + 8) >>> 4 ≤ 255 := by
  rw [Nat.shiftRight_eq_div_pow]
  omega

theorem u8cast_of_le (x : Nat) (hx : x ≤ 255) : u8cast x = x :=
  Nat.mod_eq_of_lt (by omega)

theorem tBlend_le (input : Nat → Nat) (h stride row i : Nat) :
    tBlend input h stride row i ≤ 1020 := by
  unfold tBlend
  have h1 := byte_lt input (nearRow row * stride + i)
  have h2 := byte_lt input (farRow row h * stride + i)
  omega

-- ## Buffer independence of the covered output range

theorem h2_indep (input : Nat → Nat) (w h stride row ow : Nat) (hw : 1 ≤ w)
    (buf buf' : Nat → Nat) (x : Nat) (hx : x < 2 * w) :
    resample_row_h_2_bilinear input (w, h) stride row ow buf x =
      resample_row_h_2_bilinear input (w, h) stride row ow buf' x := by
  by_cases hw1 : w = 1
  · subst hw1
    have hx01 : x = 0 ∨ x = 1 := by omega
    rcases hx01 with rfl | rfl
    · rw [(h2_eval_w1 input h stride row ow buf).1,
          (h2_eval_w1 input h stride row ow buf').1]
    · rw [(h2_eval_w1 input h stride row ow buf).2,
          (h2_eval_w1 input h stride row ow buf').2]
  · have hw2 : 2 ≤ w := by omega
    have hsplit : x = (x / 2) * 2 ∨ x = (x / 2) * 2 + 1 := by omega
    set i := x / 2 with hi
    rcases hsplit with hx2 | hx2
    · by_cases hi0 : i = 0
      · rw [hx2, hi0]
        simp only [Nat.zero_mul]
        rw [h2_eval_0 input w h stride row ow buf hw2,
            h2_eval_0 input w h stride row ow buf' hw2]
      · by_cases hiw : i ≤ w - 2
        · rw [hx2, h2_eval_even input w h stride row ow buf hw2 i (by omega) hiw,
              h2_eval_even input w h stride row ow buf' hw2 i (by omega) hiw]
        · have hiw1 : i = w - 1 := by omega
          rw [hx2, hiw1,
              h2_eval_last_even input w h stride row ow buf hw2,
              h2_eval_last_even input w h stride row ow buf' hw2]
    · by_cases hi0 : i = 0
      · rw [hx2, hi0]
        simp only [Nat.zero_mul, Nat.zero_add]
        rw [h2_eval_1 input w h stride row ow buf hw2,
            h2_eval_1 input w h stride row ow buf' hw2]
      · by_cases hiw : i ≤ w - 2
        · rw [hx2, h2_eval_odd input w h stride row ow buf hw2 i (by omega) hiw,
              h2_eval_odd input w h stride row ow buf' hw2 i (by omega) hiw]
        · have hiw1 : i = w - 1 := by omega
          rw [hx2, hiw1,
              h2_eval_last input w h stride row ow buf hw2,
              h2_eval_last input w h stride row ow buf' hw2]

theorem hv2_indep (input : Nat → Nat) (w h stride row ow : Nat) (hw : 1 ≤ w)
    (buf buf' : Nat → Nat) (x : Nat) (hx : x < 2 * w) :
    resample_row_hv_2_bilinear input (w, h) stride row ow buf x =
      resample_row_hv_2_bilinear input (w, h) stride row ow buf' x := by
  by_cases hw1 : w = 1
  · subst hw1
    have hx01 : x = 0 ∨ x = 1 := by omega
    rcases hx01 with rfl | rfl
    · rw [(hv2_eval_w1 input h stride row ow buf).1,
          (hv2_eval_w1 input h stride row ow buf').1]
    · rw [(hv2_eval_w1 input h stride row ow buf).2,
          (hv2_eval_w1 input h stride row ow buf').2]
  · have hw2 : 2 ≤ w := by omega
    by_cases hx0 : x = 0
    · rw [hx0, hv2_eval_0 input w h stride row ow buf hw2,
          hv2_eval_0 input w h stride row ow buf' hw2]
    · have hsplit : x = (x / 2 + 1) * 2 - 1 ∨ x = (x / 2) * 2 := by omega
      rcases hsplit with hx2 | hx2
      · by_cases hlast : x = w * 2 - 1
        · rw [hlast, hv2_eval_last input w h stride row ow buf hw2,
              hv2_eval_last input w h stride row ow buf' hw2]
        · have hib : 1 ≤ x / 2 + 1 ∧ x / 2 + 1 < w := by omega
          rw [hx2, hv2_eval_odd input w h stride row ow buf hw2 _ hib.1 hib.2,
              hv2_eval_odd input w h stride row ow buf' hw2 _ hib.1 hib.2]
      · have hib : 1 ≤ x / 2 ∧ x / 2 < w := by omega
        rw [hx2, hv2_eval_even input w h stride row ow buf hw2 _ hib.1 hib.2,
            hv2_eval_even input w h stride row ow buf' hw2 _ hib.1 hib.2]

theorem coversOutput_row_1 (input : Nat → Nat) (sz : Nat × Nat)
    (stride row ow : Nat) : coversOutput .row_1 input sz stride row ow := by
  intro buf buf' x hx
  simp only [ResampleFunc.apply]
  rw [resample_row_1_eval input sz stride row ow buf x hx,
      resample_row_1_eval input sz stride row ow buf' x hx]

theorem coversOutput_row_v_2 (input : Nat → Nat) (sz : Nat × Nat)
    (stride row ow : Nat) : coversOutput .row_v_2 input sz stride row ow := by
  intro buf buf' x hx
  simp only [ResampleFunc.apply]
  cases sz with
  | mk w h =>
    rw [resample_row_v_2_eval input w h stride row ow buf x hx,
        resample_row_v_2_eval input w h stride row ow buf' x hx]

theorem coversOutput_row_h_2 (input : Nat → Nat) (sz : Nat × Nat)
    (stride row ow : Nat) (hw : 1 ≤ sz.1) (how : ow ≤ 2 * sz.1) :
    coversOutput .row_h_2 input sz stride row ow := by
  intro buf buf' x hx
  simp only [ResampleFunc.apply]
  cases sz with
  | mk w h => exact h2_indep input w h stride row ow hw buf buf' x (by omega)

theorem coversOutput_row_hv_2 (input : Nat → Nat) (sz : Nat × Nat)
    (stride row ow : Nat) (hw : 1 ≤ sz.1) (how : ow ≤ 2 * sz.1) :
    coversOutput .row_hv_2 input sz stride row ow := by
  intro buf buf' x hx
  simp only [ResampleFunc.apply]
  cases sz with
  | mk w h => exact hv2_indep input w h stride row ow hw buf buf' x (by omega)

-- ## Strategy selection and construction

theorem choose_resampling_func_eq (c : Component) (hm vm : Nat) :
    (choose_resampling_func c hm vm = none ↔ spec_unsupported c hm vm) ∧
    (¬ spec_unsupported c hm vm →
      choose_resampling_func c hm vm =
        some (spec_strategy (hm / c.horizontal_sampling_factor,
                             vm / c.vertical_sampling_factor))) := by
  unfold choose_resampling_func spec_unsupported
  by_cases hdvd : c.horizontal_sampling_factor ∣ hm ∧
      c.vertical_sampling_factor ∣ vm
  · rw [if_neg (not_not_intro hdvd)]
    rcases hq1 : hm / c.horizontal_sampling_factor with _ | _ | _ | a <;>
      rcases hq2 : vm / c.vertical_sampling_factor with _ | _ | _ | b <;>
        simp [spec_supported_pair, spec_strategy, hdvd.1, hdvd.2, Prod.ext_iff]
  · rw [if_pos hdvd]
    constructor
    · constructor
      · intro _
        tauto
      · intro _
        rfl
    · intro hn
      exfalso
      tauto

theorem max?_hMax (cs : List Component) (hne : cs ≠ []) :
    (cs.map (fun c => c.horizontal_sampling_factor)).max? = some (hMax cs) := by
  unfold hMax
  cases hcase : (cs.map (fun c => c.horizontal_sampling_factor)).max? with
  | some m => rfl
  | none =>
    exfalso
    rw [List.max?_eq_none_iff] at hcase
    exact hne (List.map_eq_nil_iff.1 hcase)

theorem max?_vMax (cs : List Component) (hne : cs ≠ []) :
    (cs.map (fun c => c.vertical_sampling_factor)).max? = some (vMax cs) := by
  unfold vMax
  cases hcase : (cs.map (fun c => c.vertical_sampling_factor)).max? with
  | some m => rfl
  | none =>
    exfalso
    rw [List.max?_eq_none_iff] at hcase
    exact hne (List.map_eq_nil_iff.1 hcase)

theorem new_eq (cs : List Component) (hm vm : Nat)
    (h1 : (cs.map (fun c => c.horizontal_sampling_factor)).max? = some hm)
    (h2 : (cs.map (fun c => c.vertical_sampling_factor)).max? = some vm) :
    Resampler.new cs =
      (if (cs.map (fun c => choose_resampling_func c hm vm)).any
            (fun func => func.isNone) then
        Except.ok none
      else
        Except.ok (some
          { resample_funcs :=
              (cs.map (fun c => choose_resampling_func c hm vm)).filterMap
                (fun func => func),
            sizes := cs.map (fun comp => (comp.size.1, comp.size.2)),
            row_strides := cs.map (fun comp => comp.block_size.1 * 8) })) := by
  unfold Resampler.new
  rw [h1, h2]

theorem filterMap_choose (cs : List Component) (hm vm : Nat)
    (hall : ∀ c ∈ cs, ¬ spec_unsupported c hm vm) :
    (cs.map (fun c => choose_resampling_func c hm vm)).filterMap
        (fun func => func) =
      cs.map (fun c => spec_strategy (hm / c.horizontal_sampling_factor,
                                      vm / c.vertical_sampling_factor)) := by
  induction cs with
  | nil => rfl
  | cons c cs ih =>
    simp only [List.map_cons, List.filterMap_cons]
    rw [(choose_resampling_func_eq c hm vm).2 (hall c (List.mem_cons_self c cs))]
    rw [ih (fun d hd => hall d (List.mem_cons_of_mem c hd))]

theorem filterMap_id_length {α : Type} (l : List (Option α))
    (h : ∀ o ∈ l, o ≠ none) : (l.filterMap (fun o => o)).length = l.length := by
  induction l with
  | nil => rfl
  | cons o l ih =>
    rcases o with _ | a
    · exact absurd rfl (h none (List.mem_cons_self none l))
    · simp only [List.filterMap_cons, List.length_cons]
      rw [ih (fun o ho => h o (List.mem_cons_of_mem _ ho))]

/-- C1: `Resampler::new(components)` returns `None` exactly when some
component's ratio pair relative to the sampling maxima is non-integral or
an integer pair outside `{(1,1),(2,1),(1,2),(2,2)}`; otherwise it returns a
`Resampler` assigning every component the table strategy (identity,
horizontal-double, vertical-double, horizontal+vertical-double), together
with its plane size and row stride.  No partial `Resampler` is ever
produced: the result is either `none` or a complete structure. -/
theorem claim_resampler_new_supported (cs : List Component) (hne : cs ≠ [])
    (_hpos : ∀ c ∈ cs, 0 < c.horizontal_sampling_factor ∧
        0 < c.vertical_sampling_factor) :
    (Resampler.new cs = Except.ok none ↔
      ∃ c ∈ cs, spec_unsupported c (hMax cs) (vMax cs)) ∧
    ((∀ c ∈ cs, ¬ spec_unsupported c (hMax cs) (vMax cs)) →
      Resampler.new cs = Except.ok (some
        { resample_funcs := cs.map (fun c => spec_strategy
            (hMax cs / c.horizontal_sampling_factor,
             vMax cs / c.vertical_sampling_factor)),
          sizes := cs.map (fun comp => (comp.size.1, comp.size.2)),
          row_strides := cs.map (fun comp => comp.block_size.1 * 8) })) := by
  have h1 := max?_hMax cs hne
  have h2 := max?_vMax cs hne
  have hnew := new_eq cs (hMax cs) (vMax cs) h1 h2
  constructor
  · rw [hnew]
    by_cases hany : (cs.map
        (fun c => choose_resampling_func c (hMax cs) (vMax cs))).any
        (fun func => func.isNone) = true
    · rw [if_pos hany]
      apply iff_of_true rfl
      rw [List.any_eq_true] at hany
      obtain ⟨f, hf, hfn⟩ := hany
      obtain ⟨c, hc, rfl⟩ := List.mem_map.1 hf
      refine ⟨c, hc, ?_⟩
      rw [← (choose_resampling_func_eq c (hMax cs) (vMax cs)).1]
      exact Option.isNone_iff_eq_none.1 hfn
    · rw [if_neg hany]
      apply iff_of_false
      · simp
      · rintro ⟨c, hc, hunsup⟩
        apply hany
        rw [List.any_eq_true]
        refine ⟨choose_resampling_func c (hMax cs) (vMax cs),
          List.mem_map.2 ⟨c, hc, rfl⟩, ?_⟩
        rw [Option.isNone_iff_eq_none,
          (choose_resampling_func_eq c (hMax cs) (vMax cs)).1]
        exact hunsup
  · intro hall
    rw [hnew]
    have hany : ¬ (cs.map
        (fun c => choose_resampling_func c (hMax cs) (vMax cs))).any
        (fun func => func.isNone) = true := by
      intro hany
      rw [List.any_eq_true] at hany
      obtain ⟨f, hf, hfn⟩ := hany
      obtain ⟨c, hc, rfl⟩ := List.mem_map.1 hf
      exact hall c hc ((choose_resampling_func_eq c (hMax cs) (vMax cs)).1.1
        (Option.isNone_iff_eq_none.1 hfn))
    rw [if_neg hany, filterMap_choose cs (hMax cs) (vMax cs) hall]

/-- C8: every `Resampler` produced by a successful construction has its
three vectors (strategies, plane sizes, row strides) of length equal to
the number of components passed to construction; the structure is
immutable, so the lengths never change afterwards. -/
theorem claim_resampler_invariant (cs : List Component) (r : Resampler)
    (h : Resampler.new cs = Except.ok (some r)) :
    r.resample_funcs.length = cs.length ∧
    r.sizes.length = cs.length ∧
    r.row_strides.length = cs.length := by
  rcases hcs : cs with _ | ⟨c, cs'⟩
  · subst hcs
    rw [show Resampler.new [] = Except.error "unwrap of None" from rfl] at h
    simp at h
  · subst hcs
    have hne : c :: cs' ≠ ([] : List Component) := by simp
    have h1 := max?_hMax (c :: cs') hne
    have h2 := max?_vMax (c :: cs') hne
    rw [new_eq (c :: cs') (hMax (c :: cs')) (vMax (c :: cs')) h1 h2] at h
    by_cases hany : ((c :: cs').map
        (fun d => choose_resampling_func d (hMax (c :: cs'))
          (vMax (c :: cs')))).any (fun func => func.isNone) = true
    · rw [if_pos hany] at h
      simp at h
    · rw [if_neg hany] at h
      simp only [Except.ok.injEq, Option.some.injEq] at h
      subst h
      refine ⟨?_, by simp, by simp⟩
      simp only
      rw [filterMap_id_length]
      · simp
      · intro o ho hnone
        apply hany
        rw [List.any_eq_true]
        exact ⟨o, ho, by rw [hnone]; rfl⟩

/-- C10: `Resampler::new` panics (models as the error branch) on an empty
component slice, because `.max().unwrap()` has no value there; for every
non-empty slice both maxima exist and construction proceeds to a
non-panicking result. -/
theorem claim_new_nonempty_precondition :
    Resampler.new [] = Except.error "unwrap of None" ∧
    ∀ cs : List Component, cs ≠ [] → ∃ v, Resampler.new cs = Except.ok v := by
  refine ⟨rfl, fun cs hne => ?_⟩
  have h1 := max?_hMax cs hne
  have h2 := max?_vMax cs hne
  rw [new_eq cs (hMax cs) (vMax cs) h1 h2]
  by_cases hany : (cs.map
      (fun c => choose_resampling_func c (hMax cs) (vMax cs))).any
      (fun func => func.isNone) = true
  · rw [if_pos hany]
    exact ⟨none, rfl⟩
  · rw [if_neg hany]
    exact ⟨some _, rfl⟩

-- ## Further cast-removal helpers

theorem u8cast_blend4 (a b : Nat) (ha : a < 256) (hb : b < 256) :
    u8cast ((3 * a + b + 2) >>> 2) = (3 * a + b + 2) >>> 2 :=
  u8cast_of_le _ (blend4_le a b (by omega) (by omega))

theorem u8cast_blend4' (a b : Nat) (ha : a < 256) (hb : b < 256) :
    u8cast ((3 * a + 2 + b) >>> 2) = (3 * a + 2 + b) >>> 2 := by
  rw [show 3 * a + 2 + b = 3 * a + b + 2 from by ring]
  exact u8cast_blend4 a b ha hb

theorem shiftT2_le (t : Nat) (ht : t ≤ 1020) : (t + 2) >>> 2 ≤ 255 := by
  rw [Nat.shiftRight_eq_div_pow]
  omega

theorem u8cast_shiftT2 (t : Nat) (ht : t ≤ 1020) :
    u8cast ((t + 2) >>> 2) = (t + 2) >>> 2 :=
  u8cast_of_le _ (shiftT2_le t ht)

theorem u8cast_blend16 (t0 t1 : Nat) (h0 : t0 ≤ 1020) (h1 : t1 ≤ 1020) :
    u8cast ((3 * t0 + t1 + 8) >>> 4) = (3 * t0 + t1 + 8) >>> 4 :=
  u8cast_of_le _ (blend16_le t0 t1 h0 h1)

-- ## Claims about the row strategies

/-- C2: for every output row and plane height of a decodable image, the
vertical-double strategy reads near row `row / 2` and far row
`clamp(row / 2 ± 1)` (`+1` for odd rows, `-1` for even rows, clamped into
`[0, h - 1]`; in particular output row 0 uses far row 0 and the bottom rows
clamp to `h - 1`, so neither row index is out of range), and writes
`output[i] = (3 * near[i] + far[i] + 2) >> 2` for every column `i`.  The
exact-rational model of the floating-point computation
`row_near + fract(row_near) * 3 - 0.25`, clamped and truncated, equals this
integer mapping. -/
theorem claim_vertical_row_mapping (input out : Nat → Nat)
    (w h stride row ow : Nat) (hh : 1 ≤ h) (hrow : row < 2 * h) :
    nearRow row = row / 2 ∧
    farRow row h =
      (if row % 2 = 1 then min (row / 2 + 1) (h - 1) else row / 2 - 1) ∧
    nearRow row < h ∧ farRow row h < h ∧
    ∀ i, i < ow →
      resample_row_v_2_bilinear input (w, h) stride row ow out i =
        (3 * (input (nearRow row * stride + i) % 256) +
         input (farRow row h * stride + i) % 256 + 2) >>> 2 := by
  refine ⟨nearRow_eq row, farRow_eq row h hh hrow, nearRow_lt row h hh hrow,
    farRow_lt row h hh hrow, fun i hi => ?_⟩
  rw [resample_row_v_2_eval input w h stride row ow out i hi]
  exact u8cast_blend4 _ _ (byte_lt input _) (byte_lt input _)

/-- C6: the identity strategy copies the `output_width` bytes starting at
offset `row * row_stride` of the source plane, byte for byte, for any
width. -/
theorem claim_identity_copies (input : Nat → Nat) (sz : Nat × Nat)
    (stride row ow : Nat) (out : Nat → Nat) (j : Nat) (hj : j < ow) :
    resample_row_1 input sz stride row ow out j =
      input (row * stride + j) % 256 :=
  resample_row_1_eval input sz stride row ow out j hj

/-- C4: the horizontal-double strategy replicates the edges and blends
interior samples 3:1 toward the nearer neighbour with bias `+2` and a
shift by 2; a single-sample row is replicated into both output samples. -/
theorem claim_horizontal_strategy_formulas (input out : Nat → Nat)
    (w h stride row ow : Nat) :
    (w = 1 →
      resample_row_h_2_bilinear input (w, h) stride row ow out 0 =
        input (row * stride + 0) % 256 ∧
      resample_row_h_2_bilinear input (w, h) stride row ow out 1 =
        input (row * stride + 0) % 256) ∧
    (2 ≤ w →
      resample_row_h_2_bilinear input (w, h) stride row ow out 0 =
        input (row * stride + 0) % 256 ∧
      resample_row_h_2_bilinear input (w, h) stride row ow out 1 =
        (3 * (input (row * stride + 0) % 256) +
         input (row * stride + 1) % 256 + 2) >>> 2 ∧
      (∀ i, 1 ≤ i → i ≤ w - 2 →
        resample_row_h_2_bilinear input (w, h) stride row ow out (2 * i) =
          (3 * (input (row * stride + i) % 256) + 2 +
           input (row * stride + (i - 1)) % 256) >>> 2 ∧
        resample_row_h_2_bilinear input (w, h) stride row ow out (2 * i + 1) =
          (3 * (input (row * stride + i) % 256) + 2 +
           input (row * stride + (i + 1)) % 256) >>> 2) ∧
      resample_row_h_2_bilinear input (w, h) stride row ow out (2 * w - 2) =
        (3 * (input (row * stride + (w - 1)) % 256) +
         input (row * stride + (w - 2)) % 256 + 2) >>> 2 ∧
      resample_row_h_2_bilinear input (w, h) stride row ow out (2 * w - 1) =
        input (row * stride + (w - 1)) % 256) := by
  constructor
  · intro hw1
    subst hw1
    exact h2_eval_w1 input h stride row ow out
  · intro hw
    refine ⟨h2_eval_0 input w h stride row ow out hw, ?_, ?_, ?_, ?_⟩
    · rw [h2_eval_1 input w h stride row ow out hw,
        show (input (row * stride + 0) % 256) * 3 +
            input (row * stride + 1) % 256 + 2 =
          3 * (input (row * stride + 0) % 256) +
            input (row * stride + 1) % 256 + 2 from by ring]
      exact u8cast_blend4 _ _ (byte_lt input _) (byte_lt input _)
    · intro i hi1 hi2
      rw [Nat.mul_comm 2 i]
      constructor
      · rw [h2_eval_even input w h stride row ow out hw i hi1 hi2]
        exact u8cast_blend4' _ _ (byte_lt input _) (byte_lt input _)
      · rw [h2_eval_odd input w h stride row ow out hw i hi1 hi2]
        exact u8cast_blend4' _ _ (byte_lt input _) (byte_lt input _)
    · rw [show 2 * w - 2 = (w - 1) * 2 from by omega,
        h2_eval_last_even input w h stride row ow out hw,
        show (input (row * stride + (w - 1)) % 256) * 3 +
            input (row * stride + (w - 2)) % 256 + 2 =
          3 * (input (row * stride + (w - 1)) % 256) +
            input (row * stride + (w - 2)) % 256 + 2 from by ring]
      exact u8cast_blend4 _ _ (byte_lt input _) (byte_lt input _)
    · rw [show 2 * w - 1 = (w - 1) * 2 + 1 from by omega]
      exact h2_eval_last input w h stride row ow out hw

/-- C3: the horizontal+vertical-double strategy, with
`t[i] = 3 * near[i] + far[i]` kept at full precision (near/far rows chosen
as in the vertical-double strategy): a single-column row writes
`(t[0] + 2) >> 2` to both samples; otherwise the left edge is
`(t[0] + 2) >> 2`, interior columns blend consecutive `t` values with bias
`+8` and a shift by 4, and the right edge is `(t[w-1] + 2) >> 2`. -/
theorem claim_hv_strategy_formulas (input out : Nat → Nat)
    (w h stride row ow : Nat) :
    (w = 1 →
      resample_row_hv_2_bilinear input (w, h) stride row ow out 0 =
        (tBlend input h stride row 0 + 2) >>> 2 ∧
      resample_row_hv_2_bilinear input (w, h) stride row ow out 1 =
        (tBlend input h stride row 0 + 2) >>> 2) ∧
    (2 ≤ w →
      resample_row_hv_2_bilinear input (w, h) stride row ow out 0 =
        (tBlend input h stride row 0 + 2) >>> 2 ∧
      (∀ i, 1 ≤ i → i < w →
        resample_row_hv_2_bilinear input (w, h) stride row ow out (2 * i - 1) =
          (3 * tBlend input h stride row (i - 1) +
           tBlend input h stride row i + 8) >>> 4 ∧
        resample_row_hv_2_bilinear input (w, h) stride row ow out (2 * i) =
          (3 * tBlend input h stride row i +
           tBlend input h stride row (i - 1) + 8) >>> 4) ∧
      resample_row_hv_2_bilinear input (w, h) stride row ow out (2 * w - 1) =
        (tBlend input h stride row (w - 1) + 2) >>> 2) := by
  constructor
  · intro hw1
    subst hw1
    have hpair := hv2_eval_w1 input h stride row ow out
    refine ⟨?_, ?_⟩
    · rw [hpair.1]
      simp only [tBlend]
      exact u8cast_shiftT2 _ (by
        have := tBlend_le input h stride row 0
        simpa [tBlend] using this)
    · rw [hpair.2]
      simp only [tBlend]
      exact u8cast_shiftT2 _ (by
        have := tBlend_le input h stride row 0
        simpa [tBlend] using this)
  · intro hw
    refine ⟨?_, ?_, ?_⟩
    · rw [hv2_eval_0 input w h stride row ow out hw]
      simp only [tBlend]
      exact u8cast_shiftT2 _ (by
        have := tBlend_le input h stride row 0
        simpa [tBlend] using this)
    · intro i hi1 hi2
      rw [Nat.mul_comm 2 i]
      constructor
      · rw [hv2_eval_odd input w h stride row ow out hw i hi1 hi2]
        simp only [tBlend]
        exact u8cast_blend16 _ _ (by
            have := tBlend_le input h stride row (i - 1)
            simpa [tBlend] using this)
          (by
            have := tBlend_le input h stride row i
            simpa [tBlend] using this)
      · rw [hv2_eval_even input w h stride row ow out hw i hi1 hi2]
        simp only [tBlend]
        exact u8cast_blend16 _ _ (by
            have := tBlend_le input h stride row i
            simpa [tBlend] using this)
          (by
            have := tBlend_le input h stride row (i - 1)
            simpa [tBlend] using this)
    · rw [show 2 * w - 1 = w * 2 - 1 from by omega,
        hv2_eval_last input w h stride row ow out hw]
      simp only [tBlend]
      exact u8cast_shiftT2 _ (by
        have := tBlend_le input h stride row (w - 1)
        simpa [tBlend] using this)

/-- C7: on a constant plane (every sample `k`) the vertical-double strategy
produces a constant-`k` output row for every output row index, and the
horizontal+vertical-double strategy produces constant `k` everywhere,
including edges and the single-column case: the rounding biases make the
blends exact on uniform input. -/
theorem claim_constant_plane_fixed_point (k : Nat) (hk : k ≤ 255)
    (w h stride row ow : Nat) (out : Nat → Nat) :
    (∀ j, j < ow →
      resample_row_v_2_bilinear (fun _ => k) (w, h) stride row ow out j = k) ∧
    (1 ≤ w → ∀ j, j < 2 * w →
      resample_row_hv_2_bilinear (fun _ => k) (w, h) stride row ow out j = k) := by
  have hk256 : k % 256 = k := Nat.mod_eq_of_lt (by omega)
  have hval4 : u8cast ((3 * (k % 256) + k % 256 + 2) >>> 2) = k := by
    rw [hk256]
    simp only [u8cast, Nat.shiftRight_eq_div_pow]
    omega
  have hval16 : u8cast ((3 * (3 * (k % 256) + k % 256) +
      (3 * (k % 256) + k % 256) + 8) >>> 4) = k := by
    rw [hk256]
    simp only [u8cast, Nat.shiftRight_eq_div_pow]
    omega
  constructor
  · intro j hj
    rw [resample_row_v_2_eval (fun _ => k) w h stride row ow out j hj]
    exact hval4
  · intro hw j hj
    by_cases hw1 : w = 1
    · subst hw1
      have hj01 : j = 0 ∨ j = 1 := by omega
      rcases hj01 with rfl | rfl
      · rw [(hv2_eval_w1 (fun _ => k) h stride row ow out).1]
        exact hval4
      · rw [(hv2_eval_w1 (fun _ => k) h stride row ow out).2]
        exact hval4
    · have hw2 : 2 ≤ w := by omega
      by_cases hj0 : j = 0
      · rw [hj0, hv2_eval_0 (fun _ => k) w h stride row ow out hw2]
        exact hval4
      · have hsplit : j = (j / 2 + 1) * 2 - 1 ∨ j = (j / 2) * 2 := by omega
        rcases hsplit with hj2 | hj2
        · by_cases hlast : j = w * 2 - 1
          · rw [hlast, hv2_eval_last (fun _ => k) w h stride row ow out hw2]
            exact hval4
          · have hib : 1 ≤ j / 2 + 1 ∧ j / 2 + 1 < w := by omega
            rw [hj2, hv2_eval_odd (fun _ => k) w h stride row ow out hw2 _
              hib.1 hib.2]
            exact hval16
        · have hib : 1 ≤ j / 2 ∧ j / 2 < w := by omega
          rw [hj2, hv2_eval_even (fun _ => k) w h stride row ow out hw2 _
            hib.1 hib.2]
          exact hval16

theorem h_loop_val_lt (b : Nat → Nat) :
    ∀ n i p, p ∈ h_loop b i n → p.2 < 256 := by
  intro n
  induction n with
  | zero =>
    intro i p hp
    exact absurd hp (List.not_mem_nil p)
  | succ n ih =>
    intro i p hp
    rcases List.mem_cons.1 hp with rfl | hp
    · exact Nat.mod_lt _ (by norm_num)
    · rcases List.mem_cons.1 hp with rfl | hp
      · exact Nat.mod_lt _ (by norm_num)
      · exact ih (i + 1) p hp

theorem hv_loop_val_lt (bn bf : Nat → Nat) :
    ∀ n i t1 p, p ∈ (hv_loop bn bf t1 i n).1 → p.2 < 256 := by
  intro n
  induction n with
  | zero =>
    intro i t1 p hp
    exact absurd hp (List.not_mem_nil p)
  | succ n ih =>
    intro i t1 p hp
    rcases List.mem_cons.1 hp with rfl | hp
    · exact Nat.mod_lt _ (by norm_num)
    · rcases List.mem_cons.1 hp with rfl | hp
      · exact Nat.mod_lt _ (by norm_num)
      · exact ih (i + 1) _ p hp

theorem h2_out_or_lt (input : Nat → Nat) (sz : Nat × Nat)
    (stride row ow : Nat) (out : Nat → Nat) (j : Nat) :
    resample_row_h_2_bilinear input sz stride row ow out j = out j ∨
      resample_row_h_2_bilinear input sz stride row ow out j < 256 := by
  rcases sz with ⟨w, h⟩
  by_cases hw1 : w = 1
  · subst hw1
    simp only [resample_row_h_2_bilinear, if_true]
    apply writes_bound
    intro p hp
    rcases List.mem_cons.1 hp with rfl | hp
    · exact Nat.mod_lt _ (by norm_num)
    · rcases List.mem_cons.1 hp with rfl | hp
      · exact Nat.mod_lt _ (by norm_num)
      · exact absurd hp (List.not_mem_nil p)
  · rw [h2_unfold input w h stride row ow out hw1]
    apply writes_bound
    intro p hp
    rcases List.mem_append.1 hp with hp | hp
    · rcases List.mem_append.1 hp with hp | hp
      · rcases List.mem_cons.1 hp with rfl | hp
        · exact Nat.mod_lt _ (by norm_num)
        · rcases List.mem_cons.1 hp with rfl | hp
          · exact Nat.mod_lt _ (by norm_num)
          · exact absurd hp (List.not_mem_nil p)
      · exact h_loop_val_lt _ _ _ p hp
    · rcases List.mem_cons.1 hp with rfl | hp
      · exact Nat.mod_lt _ (by norm_num)
      · rcases List.mem_cons.1 hp with rfl | hp
        · exact Nat.mod_lt _ (by norm_num)
        · exact absurd hp (List.not_mem_nil p)

theorem v2_out_or_lt (input : Nat → Nat) (sz : Nat × Nat)
    (stride row ow : Nat) (out : Nat → Nat) (j : Nat) :
    resample_row_v_2_bilinear input sz stride row ow out j = out j ∨
      resample_row_v_2_bilinear input sz stride row ow out j < 256 := by
  unfold resample_row_v_2_bilinear
  apply writes_bound
  intro p hp
  obtain ⟨i, _, hpi⟩ := List.mem_map.1 hp
  rw [← hpi]
  exact Nat.mod_lt _ (by norm_num)

theorem hv2_out_or_lt (input : Nat → Nat) (sz : Nat × Nat)
    (stride row ow : Nat) (out : Nat → Nat) (j : Nat) :
    resample_row_hv_2_bilinear input sz stride row ow out j = out j ∨
      resample_row_hv_2_bilinear input sz stride row ow out j < 256 := by
  rcases sz with ⟨w, h⟩
  by_cases hw1 : w = 1
  · subst hw1
    simp only [resample_row_hv_2_bilinear, if_true]
    apply writes_bound
    intro p hp
    rcases List.mem_cons.1 hp with rfl | hp
    · exact Nat.mod_lt _ (by norm_num)
    · rcases List.mem_cons.1 hp with rfl | hp
      · exact Nat.mod_lt _ (by norm_num)
      · exact absurd hp (List.not_mem_nil p)
  · rw [hv2_unfold input w h stride row ow out hw1]
    apply writes_bound
    intro p hp
    rcases List.mem_cons.1 hp with rfl | hp
    · exact Nat.mod_lt _ (by norm_num)
    · rcases List.mem_append.1 hp with hp | hp
      · exact hv_loop_val_lt _ _ _ _ _ p hp
      · rcases List.mem_cons.1 hp with rfl | hp
        · exact Nat.mod_lt _ (by norm_num)
        · exact absurd hp (List.not_mem_nil p)

/-- C9: no value truncation at the byte casts.  With `u8` plane inputs
every intermediate of the four strategies is bounded (the largest,
`3 * t0 + t1 + 8` with `t = 3 * near + far ≤ 1020`, is at most `4088`,
far below `2 ^ 32`), every shifted result is at most 255, so the `as u8`
cast (`u8cast`) of every output sample is value-preserving; consequently
each strategy leaves every buffer position either untouched or holding a
byte value. -/
theorem claim_no_truncation :
    (∀ a b : Nat, a ≤ 255 → b ≤ 255 →
      3 * a + b + 2 ≤ 1022 ∧ 3 * a + b ≤ 1020 ∧
      (3 * a + b + 2) >>> 2 ≤ 255 ∧
      u8cast ((3 * a + b + 2) >>> 2) = (3 * a + b + 2) >>> 2) ∧
    (∀ t0 t1 : Nat, t0 ≤ 1020 → t1 ≤ 1020 →
      3 * t0 + t1 + 8 ≤ 4088 ∧ 3 * t0 + t1 + 8 < 2 ^ 32 ∧
      (3 * t0 + t1 + 8) >>> 4 ≤ 255 ∧
      u8cast ((3 * t0 + t1 + 8) >>> 4) = (3 * t0 + t1 + 8) >>> 4) ∧
    (∀ (input : Nat → Nat) (sz : Nat × Nat) (stride row ow : Nat)
        (out : Nat → Nat) (j : Nat),
      (resample_row_h_2_bilinear input sz stride row ow out j = out j ∨
        resample_row_h_2_bilinear input sz stride row ow out j ≤ 255) ∧
      (resample_row_v_2_bilinear input sz stride row ow out j = out j ∨
        resample_row_v_2_bilinear input sz stride row ow out j ≤ 255) ∧
      (resample_row_hv_2_bilinear input sz stride row ow out j = out j ∨
        resample_row_hv_2_bilinear input sz stride row ow out j ≤ 255)) := by
  refine ⟨?_, ?_, ?_⟩
  · intro a b ha hb
    refine ⟨by omega, by omega, blend4_le a b ha hb, u8cast_blend4 a b
      (by omega) (by omega)⟩
  · intro t0 t1 h0 h1
    refine ⟨by omega, by omega, blend16_le t0 t1 h0 h1,
      u8cast_blend16 t0 t1 h0 h1⟩
  · intro input sz stride row ow out j
    refine ⟨?_, ?_, ?_⟩
    · rcases h2_out_or_lt input sz stride row ow out j with h | h
      · exact Or.inl h
      · exact Or.inr (by omega)
    · rcases v2_out_or_lt input sz stride row ow out j with h | h
      · exact Or.inl h
      · exact Or.inr (by omega)
    · rcases hv2_out_or_lt input sz stride row ow out j with h | h
      · exact Or.inl h
      · exact Or.inr (by omega)

-- ## The interleaving row driver

theorem index_decomp (cc x x' i i' : Nat) (hi : i < cc) (hi' : i' < cc)
    (heq : x * cc + i = x' * cc + i') : x = x' ∧ i = i' := by
  have hcc : 0 < cc := by omega
  have hd : (x * cc + i) / cc = x := by
    rw [Nat.add_comm, Nat.add_mul_div_right _ _ hcc, Nat.div_eq_of_lt hi]
    omega
  have hd' : (x' * cc + i') / cc = x' := by
    rw [Nat.add_comm, Nat.add_mul_div_right _ _ hcc, Nat.div_eq_of_lt hi']
    omega
  have hm : (x * cc + i) % cc = i := by
    rw [Nat.add_comm, Nat.add_mul_mod_self_right, Nat.mod_eq_of_lt hi]
  have hm' : (x' * cc + i') % cc = i' := by
    rw [Nat.add_comm, Nat.add_mul_mod_self_right, Nat.mod_eq_of_lt hi']
  constructor
  · rw [← hd, ← hd', heq]
  · rw [← hm, ← hm', heq]

theorem interleave_fold_eval (r : Resampler) (data : List (Nat → Nat))
    (row ow : Nat) (output : Nat → Nat)
    (hcover : ∀ i, i < data.length →
      coversOutput (r.resample_funcs.getD i .row_1) (data.getD i (fun _ => 0))
        (r.sizes.getD i (0, 0)) (r.row_strides.getD i 0) row ow) :
    ∀ m, m ≤ data.length →
      (∀ x i, x < ow → i < m →
        (((List.range m).foldl
          (fun (st : (Nat → Nat) × (Nat → Nat)) i =>
            ((r.resample_funcs.getD i ResampleFunc.row_1).apply
                (data.getD i (fun _ => 0)) (r.sizes.getD i (0, 0))
                (r.row_strides.getD i 0) row ow st.1,
             writes st.2
               ((List.range ow).map
                 (fun x => (x * data.length + i,
                   (r.resample_funcs.getD i ResampleFunc.row_1).apply
                     (data.getD i (fun _ => 0)) (r.sizes.getD i (0, 0))
                     (r.row_strides.getD i 0) row ow st.1 x)))))
          ((fun _ => 0), output)).2) (x * data.length + i) =
          (r.resample_funcs.getD i ResampleFunc.row_1).apply
            (data.getD i (fun _ => 0)) (r.sizes.getD i (0, 0))
            (r.row_strides.getD i 0) row ow (fun _ => 0) x) ∧
      (∀ j, (∀ x i, x < ow → i < m → j ≠ x * data.length + i) →
        (((List.range m).foldl
          (fun (st : (Nat → Nat) × (Nat → Nat)) i =>
            ((r.resample_funcs.getD i ResampleFunc.row_1).apply
                (data.getD i (fun _ => 0)) (r.sizes.getD i (0, 0))
                (r.row_strides.getD i 0) row ow st.1,
             writes st.2
               ((List.range ow).map
                 (fun x => (x * data.length + i,
                   (r.resample_funcs.getD i ResampleFunc.row_1).apply
                     (data.getD i (fun _ => 0)) (r.sizes.getD i (0, 0))
                     (r.row_strides.getD i 0) row ow st.1 x)))))
          ((fun _ => 0), output)).2) j = output j) := by
  intro m
  induction m with
  | zero =>
    intro _
    constructor
    · intro x i _ hi
      omega
    · intro j _
      rfl
  | succ m ih =>
    intro hm
    obtain ⟨ihP, ihQ⟩ := ih (by omega)
    have hstep2 : (((List.range (m + 1)).foldl
        (fun (st : (Nat → Nat) × (Nat → Nat)) i =>
          ((r.resample_funcs.getD i ResampleFunc.row_1).apply
              (data.getD i (fun _ => 0)) (r.sizes.getD i (0, 0))
              (r.row_strides.getD i 0) row ow st.1,
           writes st.2
             ((List.range ow).map
               (fun x => (x * data.length + i,
                 (r.resample_funcs.getD i ResampleFunc.row_1).apply
                   (data.getD i (fun _ => 0)) (r.sizes.getD i (0, 0))
                   (r.row_strides.getD i 0) row ow st.1 x)))))
        ((fun _ => 0), output)).2) =
        writes (((List.range m).foldl
          (fun (st : (Nat → Nat) × (Nat → Nat)) i =>
            ((r.resample_funcs.getD i ResampleFunc.row_1).apply
                (data.getD i (fun _ => 0)) (r.sizes.getD i (0, 0))
                (r.row_strides.getD i 0) row ow st.1,
             writes st.2
               ((List.range ow).map
                 (fun x => (x * data.length + i,
                   (r.resample_funcs.getD i ResampleFunc.row_1).apply
                     (data.getD i (fun _ => 0)) (r.sizes.getD i (0, 0))
                     (r.row_strides.getD i 0) row ow st.1 x)))))
          ((fun _ => 0), output)).2)
          ((List.range ow).map
            (fun x => (x * data.length + m,
              (r.resample_funcs.getD m ResampleFunc.row_1).apply
                (data.getD m (fun _ => 0)) (r.sizes.getD m (0, 0))
                (r.row_strides.getD m 0) row ow
                (((List.range m).foldl
                  (fun (st : (Nat → Nat) × (Nat → Nat)) i =>
                    ((r.resample_funcs.getD i ResampleFunc.row_1).apply
                        (data.getD i (fun _ => 0)) (r.sizes.getD i (0, 0))
                        (r.row_strides.getD i 0) row ow st.1,
                     writes st.2
                       ((List.range ow).map
                         (fun x => (x * data.length + i,
                           (r.resample_funcs.getD i ResampleFunc.row_1).apply
                             (data.getD i (fun _ => 0)) (r.sizes.getD i (0, 0))
                             (r.row_strides.getD i 0) row ow st.1 x)))))
                  ((fun _ => 0), output)).1) x))) := by
      rw [List.range_succ, List.foldl_append, List.foldl_cons, List.foldl_nil]
    constructor
    · intro x i hx hi
      rw [hstep2]
      by_cases him : i = m
      · subst him
        have huniq : ∀ p ∈ (List.range ow).map
            (fun x' => (x' * data.length + i,
              (r.resample_funcs.getD i ResampleFunc.row_1).apply
                (data.getD i (fun _ => 0)) (r.sizes.getD i (0, 0))
                (r.row_strides.getD i 0) row ow
                (((List.range i).foldl
                  (fun (st : (Nat → Nat) × (Nat → Nat)) i =>
                    ((r.resample_funcs.getD i ResampleFunc.row_1).apply
                        (data.getD i (fun _ => 0)) (r.sizes.getD i (0, 0))
                        (r.row_strides.getD i 0) row ow st.1,
                     writes st.2
                       ((List.range ow).map
                         (fun x => (x * data.length + i,
                           (r.resample_funcs.getD i ResampleFunc.row_1).apply
                             (data.getD i (fun _ => 0)) (r.sizes.getD i (0, 0))
                             (r.row_strides.getD i 0) row ow st.1 x)))))
                  ((fun _ => 0), output)).1) x')),
            p.1 = x * data.length + i →
            p.2 = (r.resample_funcs.getD i ResampleFunc.row_1).apply
              (data.getD i (fun _ => 0)) (r.sizes.getD i (0, 0))
              (r.row_strides.getD i 0) row ow
              (((List.range i).foldl
                (fun (st : (Nat → Nat) × (Nat → Nat)) i =>
                  ((r.resample_funcs.getD i ResampleFunc.row_1).apply
                      (data.getD i (fun _ => 0)) (r.sizes.getD i (0, 0))
                      (r.row_strides.getD i 0) row ow st.1,
                   writes st.2
                     ((List.range ow).map
                       (fun x => (x * data.length + i,
                         (r.resample_funcs.getD i ResampleFunc.row_1).apply
                           (data.getD i (fun _ => 0)) (r.sizes.getD i (0, 0))
                           (r.row_strides.getD i 0) row ow st.1 x)))))
                ((fun _ => 0), output)).1) x := by
          intro p hp h1
          obtain ⟨x', hx', hpx⟩ := List.mem_map.1 hp
          rw [← hpx] at h1 ⊢
          simp only at h1 ⊢
          have := index_decomp data.length x' x i i (by omega) (by omega) h1
          rw [this.1]
        refine Eq.trans (writes_mem_unique _ _ _ _
          (List.mem_map.2 ⟨x, List.mem_range.2 hx, rfl⟩) huniq) ?_
        exact hcover i (by omega) _ (fun _ => 0) x hx
      · rw [writes_notin]
        · exact ihP x i hx (by omega)
        · intro p hp
          obtain ⟨x', hx', hpx⟩ := List.mem_map.1 hp
          rw [← hpx]
          simp only
          intro hcon
          have := index_decomp data.length x' x m i (by omega) (by omega) hcon
          exact him this.2.symm
    · intro j hj
      rw [hstep2]
      rw [writes_notin]
      · exact ihQ j (fun x i hx hi => hj x i hx (by omega))
      · intro p hp
        obtain ⟨x', hx', hpx⟩ := List.mem_map.1 hp
        rw [← hpx]
        simp only
        intro hcon
        exact hj x' m (List.mem_range.1 hx') (by omega) hcon.symm

/-- C5: under the driver's preconditions (as many planes as the
construction-time component count — expressed through the three vector
lengths — and `row`/`output_width` valid, expressed as `coversOutput` of
every component's strategy call), `resample_and_interleave_row` leaves
`output[x * component_count + i]` holding component `i`'s resampled sample
at position `x` for every `x < output_width` and every component `i`, and
every byte of `output` at an index `≥ output_width * component_count`
unchanged. -/
theorem claim_interleave_row (r : Resampler) (data : List (Nat → Nat))
    (row ow : Nat) (output : Nat → Nat)
    (_hf : r.resample_funcs.length = data.length)
    (_hs : r.sizes.length = data.length)
    (_hst : r.row_strides.length = data.length)
    (hcover : ∀ i, i < data.length →
      coversOutput (r.resample_funcs.getD i .row_1) (data.getD i (fun _ => 0))
        (r.sizes.getD i (0, 0)) (r.row_strides.getD i 0) row ow) :
    (∀ x i, x < ow → i < data.length →
      r.resample_and_interleave_row data row ow output (x * data.length + i) =
        (r.resample_funcs.getD i ResampleFunc.row_1).apply
          (data.getD i (fun _ => 0)) (r.sizes.getD i (0, 0))
          (r.row_strides.getD i 0) row ow (fun _ => 0) x) ∧
    (∀ j, ow * data.length ≤ j →
      r.resample_and_interleave_row data row ow output j = output j) := by
  have hkey := interleave_fold_eval r data row ow output hcover data.length
    (le_refl _)
  constructor
  · intro x i hx hi
    exact hkey.1 x i hx hi
  · intro j hjge
    apply hkey.2 j
    intro x i hx hi hcon
    have hxi : x * data.length + i < ow * data.length := by
      have h1 : x + 1 ≤ ow := hx
      have h2 : (x + 1) * data.length ≤ ow * data.length :=
        Nat.mul_le_mul_right _ h1
      have h3 : x * data.length + i < (x + 1) * data.length := by
        rw [Nat.add_mul, Nat.one_mul]
        omega
      omega
    omega

-- ## Witnesses

theorem claim_resampler_new_supported_witness :
    Resampler.new [⟨2, 2, (4, 4), (1, 1)⟩, ⟨1, 1, (2, 2), (1, 1)⟩] =
      Except.ok (some ⟨[ResampleFunc.row_1, ResampleFunc.row_hv_2],
        [(4, 4), (2, 2)], [8, 8]⟩) ∧
    Resampler.new [⟨3, 1, (6, 2), (1, 1)⟩, ⟨1, 1, (2, 2), (1, 1)⟩] =
      Except.ok none := by
  constructor
  · exact ((claim_resampler_new_supported
      [⟨2, 2, (4, 4), (1, 1)⟩, ⟨1, 1, (2, 2), (1, 1)⟩]
      (by decide) (by decide)).2 (by decide)).trans (by rfl)
  · exact (claim_resampler_new_supported
      [⟨3, 1, (6, 2), (1, 1)⟩, ⟨1, 1, (2, 2), (1, 1)⟩]
      (by decide) (by decide)).1.mpr (by decide)

theorem claim_vertical_row_mapping_witness :
    nearRow 0 = 0 ∧ farRow 0 4 = 0 ∧ farRow 7 4 = 3 ∧
    resample_row_v_2_bilinear (fun i => i) (4, 4) 4 0 2 (fun _ => 9) 1 = 1 := by
  have h := claim_vertical_row_mapping (fun i => i) (fun _ => 9) 4 4 4 0 2
    (by decide) (by decide)
  have h7 := claim_vertical_row_mapping (fun i => i) (fun _ => 9) 4 4 4 7 2
    (by decide) (by decide)
  have hn : nearRow 0 = 0 := h.1.trans (by decide)
  have hf : farRow 0 4 = 0 := h.2.1.trans (by decide)
  refine ⟨hn, hf, h7.2.1.trans (by decide), ?_⟩
  have he := h.2.2.2.2 1 (by decide)
  rw [hn, hf] at he
  exact he.trans (by decide)

theorem claim_hv_strategy_formulas_witness :
    resample_row_hv_2_bilinear (fun i => i) (3, 2) 3 1 6 (fun _ => 0) 0 = 1 ∧
    resample_row_hv_2_bilinear (fun i => i) (3, 2) 3 1 6 (fun _ => 0) 3 = 2 ∧
    resample_row_hv_2_bilinear (fun i => i) (3, 2) 3 1 6 (fun _ => 0) 5 = 3 ∧
    resample_row_hv_2_bilinear (fun i => i) (1, 2) 1 1 2 (fun _ => 0) 1 = 0 := by
  have hn : nearRow 1 = 0 := (nearRow_eq 1).trans (by decide)
  have hfr : farRow 1 2 = 1 :=
    (farRow_eq 1 2 (by decide) (by decide)).trans (by decide)
  have ht3 : ∀ i, tBlend (fun i => i) 2 3 1 i =
      3 * ((0 * 3 + i) % 256) + (1 * 3 + i) % 256 := by
    intro i
    unfold tBlend
    rw [hn, hfr]
  have ht1 : tBlend (fun i => i) 2 1 1 0 =
      3 * ((0 * 1 + 0) % 256) + (1 * 1 + 0) % 256 := by
    unfold tBlend
    rw [hn, hfr]
  have h := claim_hv_strategy_formulas (fun i => i) (fun _ => 0) 3 2 3 1 6
  have h1 := claim_hv_strategy_formulas (fun i => i) (fun _ => 0) 1 2 1 1 2
  refine ⟨?_, ?_, ?_, ?_⟩
  · exact (h.2 (by decide)).1.trans (by rw [ht3 0]; decide)
  · exact ((h.2 (by decide)).2.1 2 (by decide) (by decide)).1.trans
      (by rw [ht3 1, ht3 2]; decide)
  · exact (h.2 (by decide)).2.2.trans (by rw [ht3 2]; decide)
  · exact (h1.1 rfl).2.trans (by rw [ht1]; decide)

theorem claim_horizontal_strategy_formulas_witness :
    resample_row_h_2_bilinear (fun i => i) (3, 1) 5 1 6 (fun _ => 0) 0 = 5 ∧
    resample_row_h_2_bilinear (fun i => i) (3, 1) 5 1 6 (fun _ => 0) 2 = 6 ∧
    resample_row_h_2_bilinear (fun i => i) (3, 1) 5 1 6 (fun _ => 0) 5 = 7 ∧
    resample_row_h_2_bilinear (fun i => i) (1, 1) 2 3 2 (fun _ => 0) 0 = 6 := by
  have h := claim_horizontal_strategy_formulas (fun i => i) (fun _ => 0) 3 1 5 1 6
  have h1 := claim_horizontal_strategy_formulas (fun i => i) (fun _ => 0) 1 1 2 3 2
  refine ⟨?_, ?_, ?_, ?_⟩
  · exact (h.2 (by decide)).1.trans (by decide)
  · exact ((h.2 (by decide)).2.2.1 1 (by decide) (by decide)).1.trans (by decide)
  · exact (h.2 (by decide)).2.2.2.2.trans (by decide)
  · exact (h1.1 rfl).1.trans (by decide)

theorem claim_interleave_row_witness :
    Resampler.resample_and_interleave_row
      ⟨[ResampleFunc.row_1], [(2, 2)], [2]⟩ [fun _ => 9] 0 2 (fun _ => 7)
      (1 * 1 + 0) = 9 ∧
    Resampler.resample_and_interleave_row
      ⟨[ResampleFunc.row_1], [(2, 2)], [2]⟩ [fun _ => 9] 0 2 (fun _ => 7)
      5 = 7 := by
  have hcov : ∀ i, i < List.length ([fun _ => 9] : List (Nat → Nat)) →
      coversOutput ((Resampler.mk [ResampleFunc.row_1] [(2, 2)] [2]).resample_funcs.getD i .row_1)
        (([fun _ => 9] : List (Nat → Nat)).getD i (fun _ => 0))
        ((Resampler.mk [ResampleFunc.row_1] [(2, 2)] [2]).sizes.getD i (0, 0))
        ((Resampler.mk [ResampleFunc.row_1] [(2, 2)] [2]).row_strides.getD i 0)
        0 2 := by
    intro i hi
    have hi0 : i = 0 := by
      simp only [List.length_cons, List.length_nil] at hi
      omega
    subst hi0
    exact coversOutput_row_1 _ _ _ _ _
  have h := claim_interleave_row ⟨[ResampleFunc.row_1], [(2, 2)], [2]⟩
    [fun _ => 9] 0 2 (fun _ => 7) rfl rfl rfl hcov
  constructor
  · exact (h.1 1 0 (by decide) (by decide)).trans (by decide)
  · exact h.2 5 (by decide)

theorem claim_identity_copies_witness :
    resample_row_1 (fun i => i + 1) (4, 4) 8 1 3 (fun _ => 0) 2 = 11 :=
  (claim_identity_copies (fun i => i + 1) (4, 4) 8 1 3 (fun _ => 0) 2
    (by decide)).trans (by decide)

theorem claim_constant_plane_fixed_point_witness :
    resample_row_v_2_bilinear (fun _ => 200) (4, 3) 7 5 2 (fun _ => 0) 1 = 200 ∧
    resample_row_hv_2_bilinear (fun _ => 200) (2, 3) 7 5 8 (fun _ => 0) 3 = 200 ∧
    resample_row_hv_2_bilinear (fun _ => 200) (1, 3) 7 5 8 (fun _ => 0) 1 = 200 := by
  refine ⟨?_, ?_, ?_⟩
  · exact (claim_constant_plane_fixed_point 200 (by decide) 4 3 7 5 2
      (fun _ => 0)).1 1 (by decide)
  · exact (claim_constant_plane_fixed_point 200 (by decide) 2 3 7 5 8
      (fun _ => 0)).2 (by decide) 3 (by decide)
  · exact (claim_constant_plane_fixed_point 200 (by decide) 1 3 7 5 8
      (fun _ => 0)).2 (by decide) 1 (by decide)

theorem claim_resampler_invariant_witness :
    (Resampler.mk [ResampleFunc.row_1] [(4, 4)] [8]).resample_funcs.length = 1 ∧
    (Resampler.mk [ResampleFunc.row_1] [(4, 4)] [8]).sizes.length = 1 ∧
    (Resampler.mk [ResampleFunc.row_1] [(4, 4)] [8]).row_strides.length = 1 := by
  have h := claim_resampler_invariant [⟨1, 1, (4, 4), (1, 1)⟩]
    ⟨[ResampleFunc.row_1], [(4, 4)], [8]⟩ (by rfl)
  exact ⟨h.1, h.2.1, h.2.2⟩

theorem claim_no_truncation_witness :
    3 * 255 + 255 + 2 ≤ 1022 ∧
    u8cast ((3 * 255 + 255 + 2) >>> 2) = (3 * 255 + 255 + 2) >>> 2 ∧
    3 * 1020 + 1020 + 8 ≤ 4088 ∧
    u8cast ((3 * 1020 + 1020 + 8) >>> 4) = (3 * 1020 + 1020 + 8) >>> 4 := by
  have h1 := claim_no_truncation.1 255 255 (by decide) (by decide)
  have h2 := claim_no_truncation.2.1 1020 1020 (by decide) (by decide)
  exact ⟨h1.1, h1.2.2.2, h2.1, h2.2.2.2⟩

theorem claim_new_nonempty_precondition_witness :
    ∃ v, Resampler.new [⟨1, 1, (1, 1), (1, 1)⟩] = Except.ok v :=
  claim_new_nonempty_precondition.2 [⟨1, 1, (1, 1), (1, 1)⟩] (by decide)
